import Mathlib

/-!
Subnet: IPv4/IPv6 address values with a CIDR bitmask.

A shallow embedding of `ip.h`: the two family descriptors `ip::version::v4` and
`ip::version::v6`, the address value `ip::ip<IpType>`, the bitwise operators, `netmask`,
`network`, `broadcast` and the two `format` functions.

Conventions of the embedding:
* an element (`uint8_t` for v4, `uint16_t` for v6) is a `Nat`; every store into an element
  reduces modulo `2 ^ valueBits`, as the conversion to `value_t` does;
* `int` is `Int`, `size_t` is a `Nat` reduced modulo `2 ^ 64`;
* `std::array<value_t, size>` is a `List Nat`; `ip.WellFormed` records what the C++ type
  guarantees (the length, the range of every element, the range of the `int` bitmask);
* `std::ostringstream` is a `String` that grows by appending.
-/

set_option maxRecDepth 100000

namespace Subnet

/-! ## Family descriptors -/

/-- The families accepted by `ip::ip<IpType>`: `version::v4` and `version::v6`. -/
inductive version where
  | v4
  | v6
  deriving DecidableEq

/-- The enumerator `size` of a family: 4 octets for v4, 8 hextets for v6. -/
def version.size : version → Nat
  | .v4 => 4
  | .v6 => 8

/-- The constant `CHAR_BIT`. -/
def CHAR_BIT : Nat := 8

/-- The value of `sizeof(value_t)`: 1 for `uint8_t`, 2 for `uint16_t`. -/
def version.sizeofValue : version → Nat
  | .v4 => 1
  | .v6 => 2

/-- The width of one element in bits, `sizeof(netmask.data[i]) * CHAR_BIT`. -/
def version.valueBits (V : version) : Nat := V.sizeofValue * CHAR_BIT

/-- The value of `std::numeric_limits<value_t>::max()`. -/
def version.limitMax (V : version) : Nat := 2 ^ V.valueBits - 1

/-- The conversion of an `int` result to `value_t` when it is stored in an element. -/
def version.toValue (V : version) (x : Int) : Nat := (x % 2 ^ V.valueBits).toNat

/-- The conversion of an `int` to `size_t` (64 bits). -/
def toSizeT (x : Int) : Nat := (x % 2 ^ 64).toNat

/-! ## The address value -/

/-- The struct `ip<IpType>`: the element array `data` and the `int` member `bitmask`. -/
structure ip (V : version) where
  data : List Nat
  bitmask : Int
  deriving DecidableEq

/-- What the C++ types guarantee of an `ip<IpType>` value: `data` holds `size` elements, each
    one a `value_t`, and `bitmask` is a 32-bit `int`. -/
def ip.WellFormed {V : version} (a : ip V) : Prop :=
  a.data.length = V.size ∧ (∀ x ∈ a.data, x < 2 ^ V.valueBits) ∧
    -(2 ^ 31) ≤ a.bitmask ∧ a.bitmask < 2 ^ 31

instance ip.decidableWellFormed {V : version} (a : ip V) : Decidable a.WellFormed := by
  unfold ip.WellFormed
  infer_instance

/-- Aggregate initialisation of a `std::array` of `n` elements from a braced list with at most
    `n` initialisers: the elements without an initialiser are zero. -/
def arrayInit (n : Nat) (xs : List Nat) : List Nat :=
  xs ++ List.replicate (n - xs.length) 0

/-- The big-endian value of an element sequence whose elements are `w` bits wide. -/
def beValue (w : Nat) (d : List Nat) : Nat :=
  d.foldl (fun acc x => acc * 2 ^ w + x) 0

/-! ## Stream insertion -/

/-- Insertion of a non-negative number into a stream in decimal base. -/
def decNat (n : Nat) : String := String.mk (Nat.toDigits 10 n)

/-- Insertion of an `int` into a stream in decimal base. -/
def dec : Int → String
  | Int.ofNat n => decNat n
  | Int.negSucc n => "-" ++ decNat (n + 1)

/-- Insertion of an unsigned number into a stream after `std::hex`: lowercase digits, no leading
    zeros, no base mark. -/
def hex (n : Nat) : String := String.mk (Nat.toDigits 16 n)

/-- Insertion of an `int` into a stream after `std::hex`: the digits of its 32-bit
    two-complement pattern. -/
def hexInt (x : Int) : String := hex (x % 2 ^ 32).toNat

/-! ## Formatting -/

/-- The function `version::v4::format`: the loop over `i = 0 .. size - 2` inserts
    `static_cast<int>(data[i])` and a dot, then the last element, a slash and `bitmask`. -/
def version.v4.format (a : ip .v4) : String :=
  let result := (List.range (version.v4.size - 1)).foldl
    (fun out i => out ++ dec (a.data.getD i 0) ++ ".") ""
  result ++ dec (a.data.getD (version.v4.size - 1) 0) ++ "/" ++ dec a.bitmask

/-- The `for` loop of `version::v6::format`, started at index `i` with the stream content
    `result`. Each unit of `fuel` pays for one iteration; `none` means the fuel ran out. -/
def version.v6.formatLoop (d : List Nat) : Nat → Nat → String → Option String
  | 0, _, _ => none
  | fuel + 1, i, result =>
    if i < version.v6.size - 1 then
      if d.getD i 0 = 0 ∧ d.getD (i + 1) 0 = 0 then
        version.v6.formatLoop d fuel (i + 1 + 1) (result ++ "::")
      else if d.getD i 0 = 0 then
        version.v6.formatLoop d fuel (i + 1) (result ++ ":")
      else
        version.v6.formatLoop d fuel (i + 1) (result ++ hex (d.getD i 0) ++ ":")
    else some result

/-- The function `version::v6::format`. `std::hex` is inserted before the first element and
    no other base is selected afterwards, so the stream is still in hexadecimal base when
    `bitmask` is inserted. The loop gets `size` units of fuel. -/
def version.v6.format (a : ip .v6) : Option String :=
  (version.v6.formatLoop a.data version.v6.size 1 (hex (a.data.getD 0 0) ++ ":")).map
    fun result =>
      let hextet := a.data.getD (version.v6.size - 1) 0
      (if hextet ≠ 0 then result ++ hex hextet else result) ++ "/" ++ hexInt a.bitmask

/-! ## The arithmetic engine -/

/-- The `while` loop of `netmask`. The first argument is `i + 1` for the `int` index `i` of the
    source, so `i >= 0` reads `n + 1` and `--i` is the recursive call on `n`; `remaining` is the
    `size_t` variable `remaining_bits`. -/
def netmaskWalk (V : version) : Nat → Nat → List Nat → List Nat
  | 0, _, d => d
  | n + 1, remaining, d =>
    if 0 < remaining then
      let bits_to_shift := min remaining V.valueBits
      netmaskWalk V n ((remaining - bits_to_shift) % 2 ^ 64)
        (d.set n (V.toValue ((V.limitMax <<< bits_to_shift : Nat) : Int)))
    else d

/-- The function `netmask`: the mask is initialised from four copies of `max()`, then the walk
    runs from the last element with `remaining_bits = IP_SIZE_BITS - ip.bitmask` in `size_t`. -/
def netmask {V : version} (a : ip V) : ip V :=
  let IP_SIZE_BITS := V.size * V.sizeofValue * CHAR_BIT
  let remaining_bits := toSizeT ((IP_SIZE_BITS : Int) - a.bitmask)
  { data := netmaskWalk V V.size remaining_bits
      (arrayInit V.size [V.limitMax, V.limitMax, V.limitMax, V.limitMax])
    bitmask := a.bitmask }

/-- The operator `~`: every element is the complement of the promoted `int`, stored back as a
    `value_t`. -/
def operatorCompl {V : version} (a : ip V) : ip V :=
  { data := (List.range V.size).foldl
      (fun res i => res.set i (V.toValue (-(a.data.getD i 0 : Int) - 1)))
      (arrayInit V.size [0])
    bitmask := a.bitmask }

/-- The operator `&`. -/
def operatorAnd {V : version} (lhs rhs : ip V) : ip V :=
  { data := (List.range V.size).foldl
      (fun res i => res.set i (V.toValue ((lhs.data.getD i 0 &&& rhs.data.getD i 0 : Nat) : Int)))
      (arrayInit V.size [0])
    bitmask := lhs.bitmask }

/-- The operator `|`. -/
def operatorOr {V : version} (lhs rhs : ip V) : ip V :=
  { data := (List.range V.size).foldl
      (fun res i => res.set i (V.toValue ((lhs.data.getD i 0 ||| rhs.data.getD i 0 : Nat) : Int)))
      (arrayInit V.size [0])
    bitmask := lhs.bitmask }

/-- The operator `^`. -/
def operatorXor {V : version} (lhs rhs : ip V) : ip V :=
  { data := (List.range V.size).foldl
      (fun res i => res.set i (V.toValue ((lhs.data.getD i 0 ^^^ rhs.data.getD i 0 : Nat) : Int)))
      (arrayInit V.size [0])
    bitmask := lhs.bitmask }

/-- The function `broadcast`: `ip | ~netmask(ip)`. -/
def broadcast (a : ip .v4) : ip .v4 := operatorOr a (operatorCompl (netmask a))

/-- The function `network`: `ip & netmask(ip)`. -/
def network (a : ip .v4) : ip .v4 := operatorAnd a (netmask a)

/-! ## The loops with a record of what they touch -/

/-- The `while` loop of `netmask` once more, with the index kept as the `int` of the source and
    with a record of the indices at which `netmask.data[i]` is written: `i` is the index,
    `remaining` is `remaining_bits`, `d` the mask, `touched` the indices written so far. Each
    unit of `fuel` pays for one test of the loop condition; `none` means the fuel ran out. -/
def netmaskWalkTrace (V : version) :
    Nat → Int → Nat → List Nat → List Int → Option (List Nat × List Int)
  | 0, _, _, _, _ => none
  | fuel + 1, i, remaining, d, touched =>
    if 0 < remaining ∧ 0 ≤ i then
      let bits_to_shift := min remaining V.valueBits
      netmaskWalkTrace V fuel (i - 1) ((remaining - bits_to_shift) % 2 ^ 64)
        (d.set i.toNat (V.toValue ((V.limitMax <<< bits_to_shift : Nat) : Int)))
        (touched ++ [i])
    else some (d, touched)

/-- The function `netmask` with the record of the indices its walk writes: the resulting
    elements and the indices, in the order of the walk. The index starts at `size - 1` and the
    walk gets `size + 1` units of fuel. -/
def netmaskTrace {V : version} (a : ip V) : Option (List Nat × List Int) :=
  let IP_SIZE_BITS := V.size * V.sizeofValue * CHAR_BIT
  let remaining_bits := toSizeT ((IP_SIZE_BITS : Int) - a.bitmask)
  netmaskWalkTrace V (V.size + 1) ((V.size : Int) - 1) remaining_bits
    (arrayInit V.size [V.limitMax, V.limitMax, V.limitMax, V.limitMax]) []

/-- The `for` loop of `version::v6::format` once more, with a record of the scan positions `i`
    at which the branch `data[i] == 0 && data[i+1] == 0` is taken. -/
def version.v6.formatLoopPairs (d : List Nat) :
    Nat → Nat → String → List Nat → Option (String × List Nat)
  | 0, _, _, _ => none
  | fuel + 1, i, result, pairs =>
    if i < version.v6.size - 1 then
      if d.getD i 0 = 0 ∧ d.getD (i + 1) 0 = 0 then
        version.v6.formatLoopPairs d fuel (i + 1 + 1) (result ++ "::") (pairs ++ [i])
      else if d.getD i 0 = 0 then
        version.v6.formatLoopPairs d fuel (i + 1) (result ++ ":") pairs
      else
        version.v6.formatLoopPairs d fuel (i + 1) (result ++ hex (d.getD i 0) ++ ":") pairs
    else some (result, pairs)

/-! ## Reference definitions for the formatting claims -/

/-- The scan of the v6 formatter as the specification words it, over the elements that follow the
    first one (`e1 .. e7`, the last list element being `e7`): a zero followed by a zero emits
    `::` and skips the second zero; a single zero emits `:` with no digits; any other element
    emits its hexadecimal digits and `:`; the last element is emitted only when it is nonzero. -/
def v6ScanSpec : List Nat → String
  | [] => ""
  | [e] => if e = 0 then "" else hex e
  | e :: e' :: rest =>
    if e = 0 ∧ e' = 0 then "::" ++ v6ScanSpec rest
    else if e = 0 then ":" ++ v6ScanSpec (e' :: rest)
    else hex e ++ ":" ++ v6ScanSpec (e' :: rest)

/-- The number read from a string of decimal digits. -/
def decimalValue (s : String) : Nat :=
  s.data.foldl (fun acc c => acc * 10 + (c.toNat - 48)) 0

/-- The field of a v6 element after the first one, in the words of the specification: its
    hexadecimal digits, or nothing when the element is zero. -/
def v6Field (e : Nat) : String := if e = 0 then "" else hex e

/-- The fields joined by single `:` separators. -/
def joinColon : List String → String
  | [] => ""
  | [s] => s
  | s :: t :: rest => s ++ ":" ++ joinColon (t :: rest)

/-- The number of host bits that fall into element `i` of a v4 address with `k` host bits in
    all: element 3 holds the lowest 8 bits, element 0 the highest. -/
def hostBits (k i : Nat) : Nat := min 8 (k - 8 * (3 - i))

/-- The element at index `i` of the conventional v6 mask of bitmask `p`, whose 128-bit value is
    `2^128 - 2^(128-p)`. -/
def conventionalV6Elem (p i : Nat) : Nat :=
  (2 ^ 128 - 2 ^ (128 - p)) / 2 ^ (16 * (7 - i)) % 2 ^ 16

/-! ## Auxiliary facts about the loops -/

theorem arrayInit_length (n : Nat) (xs : List Nat) (h : xs.length ≤ n) :
    (arrayInit n xs).length = n := by
  simp [arrayInit]
  omega

theorem version.size_pos (V : version) : 1 ≤ V.size := by
  cases V <;> decide

theorem version.four_le_size (V : version) : 4 ≤ V.size := by
  cases V <;> decide

/-- A loop `for i in 0 .. k-1: res[i] = g i` over an array overwrites its first `k` elements. -/
theorem foldl_set_range (g : Nat → Nat) (init : List Nat) :
    ∀ k, k ≤ init.length →
      (List.range k).foldl (fun res i => res.set i (g i)) init
        = (List.range k).map g ++ init.drop k := by
  intro k
  induction k with
  | zero => intro _; simp
  | succ k ih =>
    intro hk
    have hk' : k < init.length := by omega
    rw [List.range_succ, List.foldl_append, ih (by omega)]
    simp only [List.foldl_cons, List.foldl_nil, List.map_append, List.map_cons, List.map_nil]
    rw [List.set_append_right _ _ (by simp), List.drop_eq_getElem_cons hk']
    simp only [List.length_map, List.length_range, Nat.sub_self, List.set_cons_zero,
      List.append_assoc, List.singleton_append]

/-- The loop of the operators writes `g i` at every index of the result. -/
theorem forLoop_eq_map (g : Nat → Nat) (n : Nat) (init : List Nat) (h : init.length = n) :
    (List.range n).foldl (fun res i => res.set i (g i)) init = (List.range n).map g := by
  rw [foldl_set_range g init n (by omega)]
  simp [← h]

theorem forLoop_getD (g : Nat → Nat) (n : Nat) (init : List Nat) (h : init.length = n)
    (i : Nat) (hi : i < n) :
    ((List.range n).foldl (fun res i => res.set i (g i)) init).getD i 0 = g i := by
  rw [forLoop_eq_map g n init h]
  simp [List.getD_eq_getElem?_getD, hi]

theorem forLoop_length (g : Nat → Nat) (n : Nat) (init : List Nat) (h : init.length = n) :
    ((List.range n).foldl (fun res i => res.set i (g i)) init).length = n := by
  rw [forLoop_eq_map g n init h]
  simp

theorem map_getD_range (h : Nat → Nat) (d : List Nat) :
    (List.range d.length).map (fun i => h (d.getD i 0)) = d.map h := by
  apply List.ext_getElem
  · simp
  · intro i h1 h2
    simp at h1
    simp [List.getD_eq_getElem?_getD, h1]

theorem version.toValue_natCast (V : version) (x : Nat) (hx : x < 2 ^ V.valueBits) :
    V.toValue (x : Int) = x := by
  unfold version.toValue
  have : ((x : Int) % 2 ^ V.valueBits) = x := by
    apply Int.emod_eq_of_lt
    · omega
    · exact_mod_cast hx
  rw [this]
  simp

theorem version.toValue_compl (V : version) (x : Nat) (hx : x < 2 ^ V.valueBits) :
    V.toValue (-(x : Int) - 1) = 2 ^ V.valueBits - 1 - x := by
  unfold version.toValue
  have h2 : (-(x : Int) - 1) % 2 ^ V.valueBits = ((2 ^ V.valueBits - 1 - x : Nat) : Int) := by
    have e : (-(x : Int) - 1) = ((2 ^ V.valueBits - 1 - x : Nat) : Int) + (-1) * 2 ^ V.valueBits := by
      push_cast [Nat.sub_sub, Nat.cast_sub (show 1 + x ≤ 2 ^ V.valueBits by omega)]
      ring
    rw [e, Int.add_mul_emod_self]
    apply Int.emod_eq_of_lt
    · omega
    · have : (2 ^ V.valueBits - 1 - x : Nat) < 2 ^ V.valueBits := by omega
      exact_mod_cast this
  rw [h2]
  simp

/-! ## Elements stay in range -/

theorem version.toValue_lt (V : version) (x : Int) : V.toValue x < 2 ^ V.valueBits := by
  unfold version.toValue
  have hpos : (0 : Int) < 2 ^ V.valueBits := by positivity
  have h1 := Int.emod_nonneg x hpos.ne'
  have h2 := Int.emod_lt_of_pos x hpos
  have : ((x % 2 ^ V.valueBits).toNat : Int) < ((2 ^ V.valueBits : Nat) : Int) := by
    rw [Int.toNat_of_nonneg h1]
    push_cast
    exact h2
  exact_mod_cast this

theorem ip.getD_lt {V : version} (a : ip V) (h : a.WellFormed) (i : Nat) :
    a.data.getD i 0 < 2 ^ V.valueBits := by
  by_cases hi : i < a.data.length
  · rw [List.getD_eq_getElem _ _ hi]
    exact h.2.1 _ (List.getElem_mem _)
  · rw [List.getD_eq_default _ _ (by omega)]
    positivity

theorem version.limitMax_lt (V : version) : V.limitMax < 2 ^ V.valueBits := by
  unfold version.limitMax
  have : 0 < 2 ^ V.valueBits := by positivity
  omega

theorem arrayInit_zero_length (V : version) : (arrayInit V.size [0]).length = V.size :=
  arrayInit_length _ _ (by simpa using V.size_pos)

theorem netmaskWalk_length (V : version) :
    ∀ (n remaining : Nat) (d : List Nat), (netmaskWalk V n remaining d).length = d.length := by
  intro n
  induction n with
  | zero => intro _ _; rfl
  | succ n ih =>
    intro remaining d
    unfold netmaskWalk
    split
    · simp only [ih, List.length_set]
    · rfl

theorem netmaskWalk_bound (V : version) :
    ∀ (n remaining : Nat) (d : List Nat), (∀ x ∈ d, x < 2 ^ V.valueBits) →
      ∀ x ∈ netmaskWalk V n remaining d, x < 2 ^ V.valueBits := by
  intro n
  induction n with
  | zero => intro _ d h; exact h
  | succ n ih =>
    intro remaining d h
    unfold netmaskWalk
    split
    · apply ih
      intro x hx
      rcases List.mem_or_eq_of_mem_set hx with hx | hx
      · exact h x hx
      · rw [hx]
        exact V.toValue_lt _
    · exact h

theorem netmask_wellFormed {V : version} (a : ip V) (h : a.WellFormed) :
    (netmask a).WellFormed := by
  refine ⟨?_, ?_, h.2.2⟩
  · simp only [netmask, netmaskWalk_length]
    exact arrayInit_length _ _ (by simpa using V.four_le_size)
  · apply netmaskWalk_bound
    intro x hx
    simp only [arrayInit, List.mem_append, List.mem_cons, List.mem_replicate,
      List.mem_singleton, List.not_mem_nil, or_false] at hx
    rcases hx with hx | hx
    · have := V.limitMax_lt
      rcases hx with hx | hx | hx | hx <;> rw [hx] <;> exact this
    · rw [hx.2]
      positivity

/-! ## The operators, element by element -/

theorem operatorCompl_getD {V : version} (a : ip V) (i : Nat) (hi : i < V.size)
    (hx : a.data.getD i 0 < 2 ^ V.valueBits) :
    (operatorCompl a).data.getD i 0 = 2 ^ V.valueBits - 1 - a.data.getD i 0 := by
  unfold operatorCompl
  simp only
  rw [forLoop_getD _ _ _ (arrayInit_zero_length V) i hi, V.toValue_compl _ hx]

theorem operatorAnd_getD {V : version} (a b : ip V) (i : Nat) (hi : i < V.size)
    (hx : a.data.getD i 0 < 2 ^ V.valueBits) :
    (operatorAnd a b).data.getD i 0 = a.data.getD i 0 &&& b.data.getD i 0 := by
  unfold operatorAnd
  simp only
  rw [forLoop_getD _ _ _ (arrayInit_zero_length V) i hi, V.toValue_natCast]
  exact lt_of_le_of_lt Nat.and_le_left hx

theorem operatorOr_getD {V : version} (a b : ip V) (i : Nat) (hi : i < V.size)
    (hx : a.data.getD i 0 < 2 ^ V.valueBits) (hy : b.data.getD i 0 < 2 ^ V.valueBits) :
    (operatorOr a b).data.getD i 0 = a.data.getD i 0 ||| b.data.getD i 0 := by
  unfold operatorOr
  simp only
  rw [forLoop_getD _ _ _ (arrayInit_zero_length V) i hi, V.toValue_natCast]
  exact Nat.or_lt_two_pow hx hy

theorem operatorXor_getD {V : version} (a b : ip V) (i : Nat) (hi : i < V.size)
    (hx : a.data.getD i 0 < 2 ^ V.valueBits) (hy : b.data.getD i 0 < 2 ^ V.valueBits) :
    (operatorXor a b).data.getD i 0 = a.data.getD i 0 ^^^ b.data.getD i 0 := by
  unfold operatorXor
  simp only
  rw [forLoop_getD _ _ _ (arrayInit_zero_length V) i hi, V.toValue_natCast]
  exact Nat.xor_lt_two_pow hx hy

theorem operatorCompl_length {V : version} (a : ip V) : (operatorCompl a).data.length = V.size :=
  forLoop_length _ _ _ (arrayInit_zero_length V)

theorem operatorAnd_length {V : version} (a b : ip V) : (operatorAnd a b).data.length = V.size :=
  forLoop_length _ _ _ (arrayInit_zero_length V)

theorem operatorOr_length {V : version} (a b : ip V) : (operatorOr a b).data.length = V.size :=
  forLoop_length _ _ _ (arrayInit_zero_length V)

theorem operatorXor_length {V : version} (a b : ip V) : (operatorXor a b).data.length = V.size :=
  forLoop_length _ _ _ (arrayInit_zero_length V)

theorem operatorCompl_data {V : version} (a : ip V) (hlen : a.data.length = V.size) :
    (operatorCompl a).data = a.data.map (fun x : Nat => V.toValue (-(x : Int) - 1)) := by
  unfold operatorCompl
  simp only
  rw [forLoop_eq_map _ _ _ (arrayInit_zero_length V), ← hlen]
  exact map_getD_range (fun x : Nat => V.toValue (-(x : Int) - 1)) a.data

/-! ## The netmask walk -/

/-- The function `netmask` reads nothing of its argument but the member `bitmask`. -/
theorem netmask_data_eq {V : version} (d : List Nat) (p : Int) :
    (netmask (⟨d, p⟩ : ip V)).data = (netmask (⟨[], p⟩ : ip V)).data := rfl

/-- The v4 masks of the 33 bitmasks `0 .. 32`, checked one by one. -/
theorem netmask_v4_table : ∀ k : Fin 33,
    (netmask (⟨[], ((k : Nat) : Int)⟩ : ip .v4)).data.length = 4 ∧
    beValue 8 (netmask (⟨[], ((k : Nat) : Int)⟩ : ip .v4)).data = 2 ^ 32 - 2 ^ (32 - (k : Nat)) ∧
    ∀ j : Fin 32, (beValue 8 (netmask (⟨[], ((k : Nat) : Int)⟩ : ip .v4)).data).testBit j
      = decide (32 - (k : Nat) ≤ (j : Nat)) := by
  decide

/-- The v6 masks of the bitmasks `80 .. 128`: element 4 starts at zero and the walk stops
    before it, so the value of the mask is never the conventional one. -/
theorem netmask_v6_upper_table : ∀ k : Fin 49,
    beValue 16 (netmask (⟨[], ((80 + (k : Nat) : Nat) : Int)⟩ : ip .v6)).data
      ≠ 2 ^ 128 - 2 ^ (128 - (80 + (k : Nat))) := by
  decide

theorem list_eq_of_length_four (d : List Nat) (h : d.length = 4) :
    d = [d.getD 0 0, d.getD 1 0, d.getD 2 0, d.getD 3 0] := by
  match d, h with
  | [_, _, _, _], _ => rfl

theorem beValue_four (w m0 m1 m2 m3 : Nat) :
    beValue w [m0, m1, m2, m3] = m0 * 2 ^ (3 * w) + m1 * 2 ^ (2 * w) + m2 * 2 ^ w + m3 := by
  simp only [beValue, List.foldl_cons, List.foldl_nil]
  ring

/-! ## The formatters -/

/-- The decimal numerals of the octets `0 .. 255`: digits only, the value read back is the octet,
    and a leading `0` occurs only for the octet zero. -/
theorem dec_octet_table : ∀ n : Fin 256,
    (dec ((n : Nat) : Int)).data.all Char.isDigit = true ∧
    decimalValue (dec ((n : Nat) : Int)) = n ∧
    ((dec ((n : Nat) : Int)).data.head? = some '0' → (n : Nat) = 0) := by
  decide

/-- Invariant of the loop of `version::v6::format`: from index `i` on, with enough fuel, the loop
    and the final insertion of the last element append the scan of the elements from `i`. -/
theorem formatLoop_spec (d : List Nat) (hd : d.length = 8) :
    ∀ (fuel i : Nat) (acc : String), i ≤ 8 → (i = 8 → d.getD 7 0 = 0) → 9 ≤ fuel + i →
      (version.v6.formatLoop d fuel i acc).map
          (fun result => if d.getD 7 0 ≠ 0 then result ++ hex (d.getD 7 0) else result)
        = some (acc ++ v6ScanSpec (d.drop i)) := by
  intro fuel
  induction fuel with
  | zero => intro i acc h1 _ h3; omega
  | succ fuel ih =>
    intro i acc h1 h2 h3
    unfold version.v6.formatLoop
    have hsz : version.v6.size - 1 = 7 := rfl
    rw [hsz]
    by_cases hi : i < 7
    · have e2 : d.drop (i + 1) = d.getD (i + 1) 0 :: d.drop (i + 2) := by
        rw [List.drop_eq_getElem_cons (show i + 1 < d.length by omega),
          List.getD_eq_getElem _ _ (show i + 1 < d.length by omega)]
      have e1 : d.drop i = d.getD i 0 :: d.getD (i + 1) 0 :: d.drop (i + 2) := by
        rw [List.drop_eq_getElem_cons (show i < d.length by omega), e2,
          List.getD_eq_getElem _ _ (show i < d.length by omega)]
      rw [if_pos hi, e1]
      by_cases ha : d.getD i 0 = 0
      · by_cases hb : d.getD (i + 1) 0 = 0
        · rw [if_pos ⟨ha, hb⟩, ih (i + 1 + 1) _ (by omega)
            (by intro h; have : i = 6 := by omega
                subst this; exact hb) (by omega)]
          simp [-List.getD_eq_getElem?_getD, v6ScanSpec, ha, hb, String.append_assoc]
        · rw [if_neg (by tauto), if_pos ha, ih (i + 1) _ (by omega) (by omega) (by omega), e2]
          simp [-List.getD_eq_getElem?_getD, v6ScanSpec, ha, hb, String.append_assoc]
      · rw [if_neg (by tauto), if_neg ha, ih (i + 1) _ (by omega) (by omega) (by omega), e2]
        simp [-List.getD_eq_getElem?_getD, v6ScanSpec, ha, String.append_assoc]
    · rw [if_neg hi]
      by_cases h8 : i = 8
      · subst h8
        have h7 := h2 rfl
        have : d.drop 8 = [] := by
          apply List.drop_eq_nil_of_le
          omega
        simp [-List.getD_eq_getElem?_getD, this, h7, v6ScanSpec]
      · have h7 : i = 7 := by omega
        subst h7
        have : d.drop 7 = [d.getD 7 0] := by
          rw [List.drop_eq_getElem_cons (show 7 < d.length by omega),
            List.getD_eq_getElem _ _ (show 7 < d.length by omega),
            List.drop_eq_nil_of_le (show d.length ≤ 7 + 1 by omega)]
        rw [this]
        by_cases hz : d.getD 7 0 = 0
        · simp [-List.getD_eq_getElem?_getD, v6ScanSpec, hz]
        · simp [-List.getD_eq_getElem?_getD, v6ScanSpec, hz]

theorem digitChar_ne_slash (n : Nat) : Nat.digitChar n ≠ '/' := by
  by_cases h : n < 16
  · interval_cases n <;> decide
  · have e : Nat.digitChar n = '*' := by
      unfold Nat.digitChar
      iterate 16 rw [if_neg (by omega)]
    rw [e]
    decide

theorem toDigitsCore_no_slash (b : Nat) :
    ∀ (fuel n : Nat) (acc : List Char), '/' ∉ acc → '/' ∉ Nat.toDigitsCore b fuel n acc := by
  intro fuel
  induction fuel with
  | zero => intro n acc h; simpa [Nat.toDigitsCore] using h
  | succ fuel ih =>
    intro n acc h
    have hacc : '/' ∉ Nat.digitChar (n % b) :: acc := by
      simp only [List.mem_cons, not_or]
      exact ⟨fun e => digitChar_ne_slash _ e.symm, h⟩
    unfold Nat.toDigitsCore
    simp only
    split
    · exact hacc
    · exact ih _ _ hacc

theorem hex_no_slash (n : Nat) : '/' ∉ (hex n).data :=
  toDigitsCore_no_slash 16 _ _ _ (List.not_mem_nil _)

theorem v6ScanSpec_no_slash_aux :
    ∀ (n : Nat) (l : List Nat), l.length ≤ n → '/' ∉ (v6ScanSpec l).data := by
  intro n
  induction n with
  | zero =>
    intro l hl
    have : l = [] := List.length_eq_zero.mp (by omega)
    subst this
    simp [v6ScanSpec]
  | succ n ih =>
    intro l hl
    match l, hl with
    | [], _ => simp [v6ScanSpec]
    | [e], _ =>
      unfold v6ScanSpec
      split
      · simp
      · exact hex_no_slash e
    | e :: e' :: rest, hl =>
      have h1 := ih rest (by simp at hl; omega)
      have h2 := ih (e' :: rest) (by simp at hl ⊢; omega)
      have h3 := hex_no_slash e
      unfold v6ScanSpec
      split
      · simp [h1]
      · split
        · simp [h2]
        · simp [h2, h3]

theorem v6ScanSpec_no_slash (l : List Nat) : '/' ∉ (v6ScanSpec l).data :=
  v6ScanSpec_no_slash_aux l.length l (le_refl _)

/-- With `size` units of fuel the loop of `version::v6::format` ends, and the output is the
    first element, a colon, the scan of the other elements, a slash and the bitmask in
    hexadecimal base. -/
theorem format_v6_eq (e0 e1 e2 e3 e4 e5 e6 e7 : Nat) (p : Int) :
    version.v6.format ⟨[e0, e1, e2, e3, e4, e5, e6, e7], p⟩
      = some (hex e0 ++ ":" ++ v6ScanSpec [e1, e2, e3, e4, e5, e6, e7] ++ "/" ++ hexInt p) := by
  have h := formatLoop_spec [e0, e1, e2, e3, e4, e5, e6, e7] rfl 8 1 (hex e0 ++ ":")
    (by omega) (by omega) (by omega)
  have e : version.v6.format ⟨[e0, e1, e2, e3, e4, e5, e6, e7], p⟩
      = ((version.v6.formatLoop [e0, e1, e2, e3, e4, e5, e6, e7] 8 1 (hex e0 ++ ":")).map
          (fun result => if [e0, e1, e2, e3, e4, e5, e6, e7].getD 7 0 ≠ 0
            then result ++ hex ([e0, e1, e2, e3, e4, e5, e6, e7].getD 7 0) else result)).map
          (fun r => r ++ "/" ++ hexInt p) := by
    rw [Option.map_map]
    rfl
  rw [e, h]
  rfl

theorem list_eq_of_length_eight (d : List Nat) (h : d.length = 8) :
    d = [d.getD 0 0, d.getD 1 0, d.getD 2 0, d.getD 3 0,
      d.getD 4 0, d.getD 5 0, d.getD 6 0, d.getD 7 0] := by
  match d, h with
  | [_, _, _, _, _, _, _, _], _ => rfl

/-! ## The recorded loops agree with the plain ones -/

/-- The recorded walk computes the elements of `netmaskWalk`, and every index it writes lies in
    `0 .. n - 1` when it starts at index `n - 1`. -/
theorem netmaskWalkTrace_spec (V : version) :
    ∀ (n fuel remaining : Nat) (d : List Nat) (touched : List Int), n < fuel →
      ∃ t : List Int,
        netmaskWalkTrace V fuel ((n : Int) - 1) remaining d touched
          = some (netmaskWalk V n remaining d, touched ++ t) ∧
        t.length ≤ n ∧ ∀ i ∈ t, 0 ≤ i ∧ i < (n : Int) := by
  intro n
  induction n with
  | zero =>
    intro fuel remaining d touched hf
    obtain ⟨fuel, rfl⟩ : ∃ f, fuel = f + 1 := ⟨fuel - 1, by omega⟩
    refine ⟨[], ?_, by simp, by simp⟩
    unfold netmaskWalkTrace netmaskWalk
    simp
  | succ n ih =>
    intro fuel remaining d touched hf
    obtain ⟨fuel, rfl⟩ : ∃ f, fuel = f + 1 := ⟨fuel - 1, by omega⟩
    unfold netmaskWalkTrace netmaskWalk
    have hi : ((n + 1 : Nat) : Int) - 1 = (n : Int) := by push_cast; ring
    rw [hi]
    by_cases hr : 0 < remaining
    · obtain ⟨t, ht, hlen, hmem⟩ := ih fuel ((remaining - min remaining V.valueBits) % 2 ^ 64)
        (d.set n (V.toValue ((V.limitMax <<< min remaining V.valueBits : Nat) : Int)))
        (touched ++ [(n : Int)]) (by omega)
      refine ⟨(n : Int) :: t, ?_, by simp; omega, ?_⟩
      · simp only [hr, Int.natCast_nonneg, and_self, if_true, Int.toNat_ofNat]
        rw [ht]
        simp
      · intro i hi'
        rcases List.mem_cons.mp hi' with h | h
        · subst h
          constructor <;> push_cast <;> omega
        · have := hmem i h
          constructor
          · exact this.1
          · push_cast
            omega
    · refine ⟨[], ?_, by simp, by simp⟩
      simp [hr]

/-- The recorded walk of `netmask` ends within its fuel and returns the elements of `netmask`;
    every index it writes is an index of the array. -/
theorem netmaskTrace_spec {V : version} (a : ip V) :
    ∃ t : List Int, netmaskTrace a = some ((netmask a).data, t) ∧
      t.length ≤ V.size ∧ ∀ i ∈ t, 0 ≤ i ∧ i < (V.size : Int) := by
  obtain ⟨t, ht, hlen, hmem⟩ := netmaskWalkTrace_spec V V.size (V.size + 1)
    (toSizeT (((V.size * V.sizeofValue * CHAR_BIT : Nat) : Int) - a.bitmask))
    (arrayInit V.size [V.limitMax, V.limitMax, V.limitMax, V.limitMax]) [] (by omega)
  exact ⟨t, by simpa [netmaskTrace, netmask] using ht, hlen, hmem⟩

/-- The recorded loop of the v6 formatter builds the string of the plain loop. -/
theorem formatLoopPairs_fst (d : List Nat) :
    ∀ (fuel i : Nat) (result : String) (pairs : List Nat),
      (version.v6.formatLoopPairs d fuel i result pairs).map Prod.fst
        = version.v6.formatLoop d fuel i result := by
  intro fuel
  induction fuel with
  | zero => intro i result pairs; rfl
  | succ fuel ih =>
    intro i result pairs
    unfold version.v6.formatLoopPairs version.v6.formatLoop
    split
    · split
      · exact ih _ _ _
      · split
        · exact ih _ _ _
        · exact ih _ _ _
    · rfl

/-- One step of the v4 walk while at least 8 bits remain: the element at `i` becomes zero. -/
theorem netmaskWalkTrace_v4_full_step (fuel : Nat) (i : Int) (remaining : Nat) (d : List Nat)
    (touched : List Int) (h8 : 8 ≤ remaining) (hlt : remaining < 2 ^ 64) (hi : 0 ≤ i) :
    netmaskWalkTrace .v4 (fuel + 1) i remaining d touched
      = netmaskWalkTrace .v4 fuel (i - 1) (remaining - 8) (d.set i.toNat 0) (touched ++ [i]) := by
  rw [netmaskWalkTrace]
  have hmin : min remaining version.v4.valueBits = 8 := by
    show min remaining 8 = 8
    omega
  have hv : version.v4.toValue ((version.v4.limitMax <<< 8 : Nat) : Int) = 0 := by decide
  have hmod : (remaining - 8) % 2 ^ 64 = remaining - 8 := Nat.mod_eq_of_lt (by omega)
  simp only [hmin, hv, hmod]
  rw [if_pos ⟨by omega, hi⟩]

/-- The size_t value of `32 - p` when the `int` `p` lies outside `0 .. 32`. -/
theorem toSizeT_v4_out_of_range (p : Int) (hlo : -(2 ^ 31) ≤ p) (hhi : p < 2 ^ 31)
    (hout : p < 0 ∨ 32 < p) :
    32 ≤ toSizeT (32 - p) ∧ toSizeT (32 - p) < 2 ^ 64 := by
  unfold toSizeT
  omega

/-- The recorded v4 walk from at least 32 remaining bits: four steps, all elements zero. -/
theorem netmaskWalkTrace_v4_all_zero (remaining : Nat) (h32 : 32 ≤ remaining)
    (hlt : remaining < 2 ^ 64) :
    netmaskWalkTrace .v4 5 3 remaining [255, 255, 255, 255] [] = some ([0, 0, 0, 0], [3, 2, 1, 0]) := by
  rw [netmaskWalkTrace_v4_full_step 4 3 remaining _ _ (by omega) hlt (by omega),
    netmaskWalkTrace_v4_full_step 3 (3 - 1) (remaining - 8) _ _ (by omega) (by omega) (by omega),
    netmaskWalkTrace_v4_full_step 2 (3 - 1 - 1) (remaining - 8 - 8) _ _ (by omega) (by omega)
      (by omega),
    netmaskWalkTrace_v4_full_step 1 (3 - 1 - 1 - 1) (remaining - 8 - 8 - 8) _ _ (by omega)
      (by omega) (by omega)]
  rw [netmaskWalkTrace]
  simp

/-! ## The v6 scan as joined fields -/

theorem digitChar_ne_colon (n : Nat) : Nat.digitChar n ≠ ':' := by
  by_cases h : n < 16
  · interval_cases n <;> decide
  · have e : Nat.digitChar n = '*' := by
      unfold Nat.digitChar
      iterate 16 rw [if_neg (by omega)]
    rw [e]
    decide

theorem toDigitsCore_no_colon (b : Nat) :
    ∀ (fuel n : Nat) (acc : List Char), ':' ∉ acc → ':' ∉ Nat.toDigitsCore b fuel n acc := by
  intro fuel
  induction fuel with
  | zero => intro n acc h; simpa [Nat.toDigitsCore] using h
  | succ fuel ih =>
    intro n acc h
    have hacc : ':' ∉ Nat.digitChar (n % b) :: acc := by
      simp only [List.mem_cons, not_or]
      exact ⟨fun e => digitChar_ne_colon _ e.symm, h⟩
    unfold Nat.toDigitsCore
    simp only
    split
    · exact hacc
    · exact ih _ _ hacc

theorem hex_no_colon (n : Nat) : ':' ∉ (hex n).data :=
  toDigitsCore_no_colon 16 _ _ _ (List.not_mem_nil _)

theorem v6Field_no_colon (e : Nat) : ':' ∉ (v6Field e).data := by
  unfold v6Field
  split
  · simp
  · exact hex_no_colon e

theorem v6Field_no_slash (e : Nat) : '/' ∉ (v6Field e).data := by
  unfold v6Field
  split
  · simp
  · exact hex_no_slash e

/-- When the last element is nonzero, the scan is the fields joined by single colons. -/
theorem v6ScanSpec_eq_joinColon :
    ∀ (n : Nat) (l : List Nat), l.length ≤ n → l ≠ [] → l.getLast? ≠ some 0 →
      v6ScanSpec l = joinColon (l.map v6Field) := by
  intro n
  induction n with
  | zero =>
    intro l hl hne _
    exact absurd (List.length_eq_zero.mp (by omega)) hne
  | succ n ih =>
    intro l hl hne hlast
    match l, hl, hne, hlast with
    | [e], _, _, hlast =>
      have he : e ≠ 0 := by
        intro h
        apply hlast
        simp [h]
      simp [v6ScanSpec, joinColon, v6Field, he]
    | e :: e' :: rest, hl, _, hlast =>
      have hlast' : (e' :: rest).getLast? ≠ some 0 := by
        simpa [List.getLast?_cons_cons] using hlast
      have h2 := ih (e' :: rest) (by simp at hl ⊢; omega) (by simp) hlast'
      by_cases he : e = 0
      · by_cases he' : e' = 0
        · match rest, hl, hlast', h2 with
          | [], _, hlast', _ =>
            exact absurd (by simp [he']) hlast'
          | r :: rs, hl, hlast', _ =>
            have hlast'' : (r :: rs).getLast? ≠ some 0 := by
              simpa [List.getLast?_cons_cons] using hlast'
            have h3 := ih (r :: rs) (by simp at hl ⊢; omega) (by simp) hlast''
            subst he
            subst he'
            rw [v6ScanSpec, if_pos ⟨rfl, rfl⟩, h3]
            simp only [List.map_cons, joinColon, v6Field, if_true]
            apply String.ext
            simp [String.data_append]
        · subst he
          rw [v6ScanSpec, if_neg (by tauto), if_pos rfl, h2]
          simp only [List.map_cons, joinColon, v6Field, if_true]
          apply String.ext
          simp [String.data_append]
      · rw [v6ScanSpec, if_neg (by tauto), if_neg he, h2]
        simp only [List.map_cons, joinColon, v6Field, if_neg he]

/-! ## Network and broadcast, element by element -/

theorem network_getD (a : ip .v4) (hwf : a.WellFormed) (i : Nat) (hi : i < 4) :
    (network a).data.getD i 0 = a.data.getD i 0 &&& (netmask a).data.getD i 0 :=
  operatorAnd_getD a (netmask a) i hi (a.getD_lt hwf i)

theorem netmask_getD_lt (a : ip .v4) (hwf : a.WellFormed) (i : Nat) :
    (netmask a).data.getD i 0 < 2 ^ 8 :=
  (netmask a).getD_lt (netmask_wellFormed a hwf) i

theorem broadcast_getD (a : ip .v4) (hwf : a.WellFormed) (i : Nat) (hi : i < 4) :
    (broadcast a).data.getD i 0 = a.data.getD i 0 ||| (255 - (netmask a).data.getD i 0) := by
  have hm := netmask_getD_lt a hwf i
  have hc : (operatorCompl (netmask a)).data.getD i 0 = 255 - (netmask a).data.getD i 0 :=
    operatorCompl_getD (netmask a) i hi hm
  have h := operatorOr_getD a (operatorCompl (netmask a)) i hi (a.getD_lt hwf i)
    (by rw [hc]; show 255 - _ < 256; omega)
  rw [hc] at h
  exact h

theorem ip_v4_eq_of_getD (x y : ip .v4) (hx : x.data.length = 4) (hy : y.data.length = 4)
    (hb : x.bitmask = y.bitmask) (h : ∀ i, i < 4 → x.data.getD i 0 = y.data.getD i 0) :
    x = y := by
  obtain ⟨dx, px⟩ := x
  obtain ⟨dy, py⟩ := y
  simp only at hx hy hb h
  rw [list_eq_of_length_four dx hx, list_eq_of_length_four dy hy, h 0 (by omega),
    h 1 (by omega), h 2 (by omega), h 3 (by omega), hb]

theorem testBit_octet_compl (m j : Nat) (hm : m < 2 ^ 8) :
    (255 - m).testBit j = (decide (j < 8) && !m.testBit j) := by
  have := Nat.testBit_two_pow_sub_succ hm j
  rwa [show 2 ^ 8 - (m + 1) = 255 - m by norm_num; omega] at this

theorem testBit_octet_high (x j : Nat) (hx : x < 2 ^ 8) (hj : 8 ≤ j) : x.testBit j = false :=
  Nat.testBit_lt_two_pow (lt_of_lt_of_le hx (Nat.pow_le_pow_right (by omega) hj))

theorem or_compl_and_octet (x m : Nat) (hm : m < 2 ^ 8) :
    (x ||| (255 - m)) &&& m = x &&& m := by
  apply Nat.eq_of_testBit_eq
  intro j
  rw [Nat.testBit_and, Nat.testBit_or, Nat.testBit_and, testBit_octet_compl m j hm]
  cases x.testBit j <;> cases m.testBit j <;> simp

theorem and_or_compl_octet (x m : Nat) (hx : x < 2 ^ 8) (hm : m < 2 ^ 8) :
    (x &&& m) ||| (255 - m) = x ||| (255 - m) := by
  apply Nat.eq_of_testBit_eq
  intro j
  rw [Nat.testBit_or, Nat.testBit_or, Nat.testBit_and, testBit_octet_compl m j hm]
  by_cases hj : j < 8
  · cases x.testBit j <;> cases m.testBit j <;> simp [hj]
  · rw [testBit_octet_high x j hx (by omega), testBit_octet_high m j hm (by omega)]
    simp [hj]

theorem or_octet_lt (x m : Nat) (hx : x < 2 ^ 8) : x ||| (255 - m) < 2 ^ 8 :=
  Nat.or_lt_two_pow hx (by show 255 - m < 256; omega)

/-! ## The subnet as a range of numbers -/

/-- The v4 masks of the bitmasks `0 .. 32`, element by element. -/
theorem netmask_v4_elems_table : ∀ p : Fin 33,
    (netmask (⟨[], ((p : Nat) : Int)⟩ : ip .v4)).data
      = [256 - 2 ^ hostBits (32 - (p : Nat)) 0, 256 - 2 ^ hostBits (32 - (p : Nat)) 1,
         256 - 2 ^ hostBits (32 - (p : Nat)) 2, 256 - 2 ^ hostBits (32 - (p : Nat)) 3] := by
  decide

theorem netmask_v4_elems (a : ip .v4) (h0 : 0 ≤ a.bitmask) (h32 : a.bitmask ≤ 32) :
    (netmask a).data
      = [256 - 2 ^ hostBits (32 - a.bitmask.toNat) 0, 256 - 2 ^ hostBits (32 - a.bitmask.toNat) 1,
         256 - 2 ^ hostBits (32 - a.bitmask.toNat) 2,
         256 - 2 ^ hostBits (32 - a.bitmask.toNat) 3] := by
  obtain ⟨d, p⟩ := a
  simp only at h0 h32
  lift p to Nat using h0
  have hp : p < 33 := by omega
  have := netmask_v4_elems_table ⟨p, hp⟩
  simp only [Int.toNat_ofNat] at *
  rw [netmask_data_eq d]
  exact this

/-- An octet masked by an octet of the netmask loses its low `j` bits. -/
theorem and_mask_octet_table : ∀ (j : Fin 9) (x : Fin 256),
    (x : Nat) &&& (256 - 2 ^ (j : Nat)) = (x : Nat) - (x : Nat) % 2 ^ (j : Nat) := by
  decide

/-- An octet joined with the complement of an octet of the netmask has its low `j` bits set. -/
theorem or_mask_octet_table : ∀ (j : Fin 9) (x : Fin 256),
    (x : Nat) ||| (255 - (256 - 2 ^ (j : Nat)))
      = (x : Nat) - (x : Nat) % 2 ^ (j : Nat) + (2 ^ (j : Nat) - 1) := by
  decide

theorem hostBits_le (k i : Nat) : hostBits k i ≤ 8 := by
  unfold hostBits
  omega

theorem and_mask_octet (x k i : Nat) (hx : x < 2 ^ 8) :
    x &&& (256 - 2 ^ hostBits k i) = x - x % 2 ^ hostBits k i :=
  and_mask_octet_table ⟨hostBits k i, by have := hostBits_le k i; omega⟩ ⟨x, hx⟩

theorem or_mask_octet (x k i : Nat) (hx : x < 2 ^ 8) :
    x ||| (255 - (256 - 2 ^ hostBits k i))
      = x - x % 2 ^ hostBits k i + (2 ^ hostBits k i - 1) :=
  or_mask_octet_table ⟨hostBits k i, by have := hostBits_le k i; omega⟩ ⟨x, hx⟩

set_option maxHeartbeats 4000000 in
/-- The arithmetic of clearing, or setting, the low `k` bits of a 32-bit number octet by octet. -/
theorem subnet_arith (k a0 a1 a2 a3 : Nat) (hk : k ≤ 32) (h0 : a0 < 256) (h1 : a1 < 256)
    (h2 : a2 < 256) (h3 : a3 < 256) :
    (a0 - a0 % 2 ^ hostBits k 0) * 2 ^ 24 + (a1 - a1 % 2 ^ hostBits k 1) * 2 ^ 16
        + (a2 - a2 % 2 ^ hostBits k 2) * 2 ^ 8 + (a3 - a3 % 2 ^ hostBits k 3)
      = (a0 * 2 ^ 24 + a1 * 2 ^ 16 + a2 * 2 ^ 8 + a3)
        - (a0 * 2 ^ 24 + a1 * 2 ^ 16 + a2 * 2 ^ 8 + a3) % 2 ^ k ∧
    (a0 - a0 % 2 ^ hostBits k 0 + (2 ^ hostBits k 0 - 1)) * 2 ^ 24
        + (a1 - a1 % 2 ^ hostBits k 1 + (2 ^ hostBits k 1 - 1)) * 2 ^ 16
        + (a2 - a2 % 2 ^ hostBits k 2 + (2 ^ hostBits k 2 - 1)) * 2 ^ 8
        + (a3 - a3 % 2 ^ hostBits k 3 + (2 ^ hostBits k 3 - 1))
      = (a0 * 2 ^ 24 + a1 * 2 ^ 16 + a2 * 2 ^ 8 + a3)
        - (a0 * 2 ^ 24 + a1 * 2 ^ 16 + a2 * 2 ^ 8 + a3) % 2 ^ k + 2 ^ k - 1 := by
  interval_cases k <;> simp only [hostBits] <;> norm_num <;> omega

/-! ## The v6 masks -/

/-- The v6 masks of the bitmasks `0 .. 64`: conventional, with elements 4 to 7 zero. -/
theorem netmask_v6_lower_table : ∀ p : Fin 65,
    beValue 16 (netmask (⟨[], ((p : Nat) : Int)⟩ : ip .v6)).data = 2 ^ 128 - 2 ^ (128 - (p : Nat)) ∧
    ∀ i : Fin 4, (netmask (⟨[], ((p : Nat) : Int)⟩ : ip .v6)).data.getD (4 + (i : Nat)) 0 = 0 := by
  decide

/-- The v6 masks of the bitmasks `65 .. 128`: elements 0 to 3 are `0xffff`, and every element
    among the last `ceil((128-p)/16)` ones, those the walk reaches, is that of the conventional
    mask; when `128 - p` is no multiple of 16 the elements are not those of bitmask 64. -/
theorem netmask_v6_upper_elems_table : ∀ k : Fin 64,
    (∀ i : Fin 4, (netmask (⟨[], ((65 + (k : Nat) : Nat) : Int)⟩ : ip .v6)).data.getD i 0
      = 0xffff) ∧
    (∀ i : Fin 8, 8 - (128 - (65 + (k : Nat)) + 15) / 16 ≤ (i : Nat) →
      (netmask (⟨[], ((65 + (k : Nat) : Nat) : Int)⟩ : ip .v6)).data.getD i 0
        = conventionalV6Elem (65 + (k : Nat)) i) ∧
    ((128 - (65 + (k : Nat))) % 16 ≠ 0 →
      (netmask (⟨[], ((65 + (k : Nat) : Nat) : Int)⟩ : ip .v6)).data
        ≠ [0xffff, 0xffff, 0xffff, 0xffff, 0, 0, 0, 0]) := by
  decide

/-- The v6 masks of the bitmasks `65 .. 79`: the walk reaches element 4, the mask is the
    conventional one. -/
theorem netmask_v6_middle_table : ∀ k : Fin 15,
    beValue 16 (netmask (⟨[], ((65 + (k : Nat) : Nat) : Int)⟩ : ip .v6)).data
      = 2 ^ 128 - 2 ^ (128 - (65 + (k : Nat))) := by
  decide

/-! ## Claims -/

/-- C1: for every v4 address whose bitmask `p` satisfies `0 ≤ p ≤ 32`, `netmask` returns four
    elements `m0 .. m3` whose big-endian value `m0*2^24 + m1*2^16 + m2*2^8 + m3` is
    `2^32 - 2^(32-p)`: bit `j` of that value is one exactly when `32 - p ≤ j`. For `p = 25` the
    elements are `[255,255,255,128]`, for `p = 11` they are `[255,224,0,0]`. -/
theorem netmask_v4_conventional (a : ip .v4) (h0 : 0 ≤ a.bitmask) (h32 : a.bitmask ≤ 32) :
    ∃ m0 m1 m2 m3 : Nat, (netmask a).data = [m0, m1, m2, m3] ∧
      m0 * 2 ^ 24 + m1 * 2 ^ 16 + m2 * 2 ^ 8 + m3 = 2 ^ 32 - 2 ^ (32 - a.bitmask.toNat) ∧
      (∀ j, j < 32 → (m0 * 2 ^ 24 + m1 * 2 ^ 16 + m2 * 2 ^ 8 + m3).testBit j
        = decide (32 - a.bitmask.toNat ≤ j)) ∧
      (a.bitmask = 25 → (netmask a).data = [255, 255, 255, 128]) ∧
      (a.bitmask = 11 → (netmask a).data = [255, 224, 0, 0]) := by
  obtain ⟨d, p⟩ := a
  simp only at h0 h32
  lift p to Nat using h0
  have hp : p < 33 := by omega
  obtain ⟨hlen, hval, hbits⟩ := netmask_v4_table ⟨p, hp⟩
  simp only [Int.toNat_ofNat] at *
  rw [netmask_data_eq d]
  have hd := list_eq_of_length_four _ hlen
  refine ⟨_, _, _, _, hd, ?_, ?_, ?_, ?_⟩
  · rw [hd, beValue_four] at hval
    exact hval
  · intro j hj
    have := hbits ⟨j, hj⟩
    rw [hd, beValue_four] at this
    exact this
  · intro h
    have : p = 25 := by exact_mod_cast h
    subst this
    rfl
  · intro h
    have : p = 11 := by exact_mod_cast h
    subst this
    rfl

/-- Witness of C1 at the address `192.168.0.101/25`. -/
theorem netmask_v4_conventional_witness :
    ∃ m0 m1 m2 m3 : Nat,
      (netmask (⟨[192, 168, 0, 101], 25⟩ : ip .v4)).data = [m0, m1, m2, m3] ∧
      m0 * 2 ^ 24 + m1 * 2 ^ 16 + m2 * 2 ^ 8 + m3 = 2 ^ 32 - 2 ^ (32 - (25 : Int).toNat) ∧
      (∀ j, j < 32 → (m0 * 2 ^ 24 + m1 * 2 ^ 16 + m2 * 2 ^ 8 + m3).testBit j
        = decide (32 - (25 : Int).toNat ≤ j)) ∧
      ((25 : Int) = 25 → (netmask (⟨[192, 168, 0, 101], 25⟩ : ip .v4)).data
        = [255, 255, 255, 128]) ∧
      ((25 : Int) = 11 → (netmask (⟨[192, 168, 0, 101], 25⟩ : ip .v4)).data
        = [255, 224, 0, 0]) :=
  netmask_v4_conventional ⟨[192, 168, 0, 101], 25⟩ (by decide) (by decide)

/-- C2: the code does not produce the conventional v6 mask above bitmask 64. At bitmask 128 the
    result of `netmask` is `[0xffff,0xffff,0xffff,0xffff,0,0,0,0]`, not eight elements `0xffff`,
    and its 128-bit value is not `2^128 - 2^0`; for every bitmask `80 .. 128` the value of the
    mask differs from `2^128 - 2^(128-p)`. -/
theorem netmask_v6_bitmask_128_not_all_ones :
    (netmask (⟨[0x2001, 0xdb8, 0xface, 0, 0, 0, 0, 1], 128⟩ : ip .v6)).data
      = [0xffff, 0xffff, 0xffff, 0xffff, 0, 0, 0, 0] ∧
    beValue 16 (netmask (⟨[0x2001, 0xdb8, 0xface, 0, 0, 0, 0, 1], 128⟩ : ip .v6)).data
      ≠ 2 ^ 128 - 2 ^ (128 - 128) ∧
    arrayInit version.v6.size
      [version.v6.limitMax, version.v6.limitMax, version.v6.limitMax, version.v6.limitMax]
      = [0xffff, 0xffff, 0xffff, 0xffff, 0, 0, 0, 0] ∧
    ∀ (d : List Nat) (p : Nat), 80 ≤ p → p ≤ 128 →
      beValue 16 (netmask (⟨d, (p : Int)⟩ : ip .v6)).data ≠ 2 ^ 128 - 2 ^ (128 - p) := by
  refine ⟨by decide, by decide, by decide, ?_⟩
  intro d p h1 h2
  rw [netmask_data_eq d]
  have := netmask_v6_upper_table ⟨p - 80, by omega⟩
  simp only at this
  rwa [show 80 + (p - 80) = p by omega] at this

/-- C3: for every v4 address `a` with bitmask in `0 .. 32`, element `i` of `network a` is
    `a[i] AND netmask(a)[i]`; so in every bit position where the netmask has a zero the network
    address has a zero, and where the netmask has a one it has the bit of `a`. For
    `[192,168,0,101]/25` the elements are `[192,168,0,0]`, for `[192,168,0,104]/11` they are
    `[192,160,0,0]`. -/
theorem network_v4_masks_host_bits (a : ip .v4) (hwf : a.WellFormed) (_h0 : 0 ≤ a.bitmask)
    (_h32 : a.bitmask ≤ 32) :
    (network a).data.length = 4 ∧
    (∀ i, i < 4 →
      (network a).data.getD i 0 = a.data.getD i 0 &&& (netmask a).data.getD i 0) ∧
    (∀ i, i < 4 → ∀ j,
      (((netmask a).data.getD i 0).testBit j = false →
        ((network a).data.getD i 0).testBit j = false) ∧
      (((netmask a).data.getD i 0).testBit j = true →
        ((network a).data.getD i 0).testBit j = (a.data.getD i 0).testBit j)) ∧
    (network (⟨[192, 168, 0, 101], 25⟩ : ip .v4)).data = [192, 168, 0, 0] ∧
    (network (⟨[192, 168, 0, 104], 11⟩ : ip .v4)).data = [192, 160, 0, 0] := by
  have hel : ∀ i, i < 4 →
      (network a).data.getD i 0 = a.data.getD i 0 &&& (netmask a).data.getD i 0 :=
    fun i hi => operatorAnd_getD a (netmask a) i hi (a.getD_lt hwf i)
  refine ⟨operatorAnd_length a (netmask a), hel, ?_, by decide, by decide⟩
  intro i hi j
  rw [hel i hi, Nat.testBit_and]
  constructor
  · intro h
    rw [h, Bool.and_false]
  · intro h
    rw [h, Bool.and_true]

/-- Witness of C3 at the address `192.168.0.101/25`. -/
theorem network_v4_masks_host_bits_witness :
    (network (⟨[192, 168, 0, 101], 25⟩ : ip .v4)).data.length = 4 ∧
    (∀ i, i < 4 → (network (⟨[192, 168, 0, 101], 25⟩ : ip .v4)).data.getD i 0
      = (⟨[192, 168, 0, 101], 25⟩ : ip .v4).data.getD i 0
        &&& (netmask (⟨[192, 168, 0, 101], 25⟩ : ip .v4)).data.getD i 0) ∧
    (∀ i, i < 4 → ∀ j,
      (((netmask (⟨[192, 168, 0, 101], 25⟩ : ip .v4)).data.getD i 0).testBit j = false →
        ((network (⟨[192, 168, 0, 101], 25⟩ : ip .v4)).data.getD i 0).testBit j = false) ∧
      (((netmask (⟨[192, 168, 0, 101], 25⟩ : ip .v4)).data.getD i 0).testBit j = true →
        ((network (⟨[192, 168, 0, 101], 25⟩ : ip .v4)).data.getD i 0).testBit j
          = ((⟨[192, 168, 0, 101], 25⟩ : ip .v4).data.getD i 0).testBit j)) ∧
    (network (⟨[192, 168, 0, 101], 25⟩ : ip .v4)).data = [192, 168, 0, 0] ∧
    (network (⟨[192, 168, 0, 104], 11⟩ : ip .v4)).data = [192, 160, 0, 0] :=
  network_v4_masks_host_bits ⟨[192, 168, 0, 101], 25⟩ (by decide) (by decide) (by decide)

/-- C4: for every v4 address `a` with bitmask in `0 .. 32`, element `i` of `broadcast a` is
    `a[i] OR (255 - netmask(a)[i])`; so in every bit position where the netmask has a zero the
    broadcast address has a one, and where the netmask has a one it has the bit of `a`. For
    `[192,168,0,101]/25` the elements are `[192,168,0,127]`, for `[192,168,0,104]/11` they are
    `[192,191,255,255]`. -/
theorem broadcast_v4_sets_host_bits (a : ip .v4) (hwf : a.WellFormed) (_h0 : 0 ≤ a.bitmask)
    (_h32 : a.bitmask ≤ 32) :
    (broadcast a).data.length = 4 ∧
    (∀ i, i < 4 →
      (broadcast a).data.getD i 0 = a.data.getD i 0 ||| (255 - (netmask a).data.getD i 0)) ∧
    (∀ i, i < 4 → ∀ j, j < 8 →
      (((netmask a).data.getD i 0).testBit j = false →
        ((broadcast a).data.getD i 0).testBit j = true) ∧
      (((netmask a).data.getD i 0).testBit j = true →
        ((broadcast a).data.getD i 0).testBit j = (a.data.getD i 0).testBit j)) ∧
    (broadcast (⟨[192, 168, 0, 101], 25⟩ : ip .v4)).data = [192, 168, 0, 127] ∧
    (broadcast (⟨[192, 168, 0, 104], 11⟩ : ip .v4)).data = [192, 191, 255, 255] := by
  have hm : ∀ i, (netmask a).data.getD i 0 < 2 ^ 8 :=
    fun i => (netmask a).getD_lt (netmask_wellFormed a hwf) i
  have hc : ∀ i, i < 4 →
      (operatorCompl (netmask a)).data.getD i 0 = 255 - (netmask a).data.getD i 0 :=
    fun i hi => operatorCompl_getD (netmask a) i hi (hm i)
  have hel : ∀ i, i < 4 →
      (broadcast a).data.getD i 0 = a.data.getD i 0 ||| (255 - (netmask a).data.getD i 0) := by
    intro i hi
    have h := operatorOr_getD a (operatorCompl (netmask a)) i hi (a.getD_lt hwf i)
      (by rw [hc i hi]; show 255 - _ < 256; omega)
    rw [hc i hi] at h
    exact h
  refine ⟨operatorOr_length a _, hel, ?_, by decide, by decide⟩
  intro i hi j hj
  have hbit : (255 - (netmask a).data.getD i 0).testBit j
      = !((netmask a).data.getD i 0).testBit j := by
    have := Nat.testBit_two_pow_sub_succ (hm i) j
    rw [show 2 ^ 8 - ((netmask a).data.getD i 0 + 1) = 255 - (netmask a).data.getD i 0 by
      norm_num; omega] at this
    rw [this]
    simp [hj]
  rw [hel i hi, Nat.testBit_or, hbit]
  constructor
  · intro h
    rw [h]
    simp
  · intro h
    rw [h]
    simp

/-- Witness of C4 at the address `192.168.0.101/25`. -/
theorem broadcast_v4_sets_host_bits_witness :
    (broadcast (⟨[192, 168, 0, 101], 25⟩ : ip .v4)).data.length = 4 ∧
    (∀ i, i < 4 → (broadcast (⟨[192, 168, 0, 101], 25⟩ : ip .v4)).data.getD i 0
      = (⟨[192, 168, 0, 101], 25⟩ : ip .v4).data.getD i 0
        ||| (255 - (netmask (⟨[192, 168, 0, 101], 25⟩ : ip .v4)).data.getD i 0)) ∧
    (∀ i, i < 4 → ∀ j, j < 8 →
      (((netmask (⟨[192, 168, 0, 101], 25⟩ : ip .v4)).data.getD i 0).testBit j = false →
        ((broadcast (⟨[192, 168, 0, 101], 25⟩ : ip .v4)).data.getD i 0).testBit j = true) ∧
      (((netmask (⟨[192, 168, 0, 101], 25⟩ : ip .v4)).data.getD i 0).testBit j = true →
        ((broadcast (⟨[192, 168, 0, 101], 25⟩ : ip .v4)).data.getD i 0).testBit j
          = ((⟨[192, 168, 0, 101], 25⟩ : ip .v4).data.getD i 0).testBit j)) ∧
    (broadcast (⟨[192, 168, 0, 101], 25⟩ : ip .v4)).data = [192, 168, 0, 127] ∧
    (broadcast (⟨[192, 168, 0, 104], 11⟩ : ip .v4)).data = [192, 191, 255, 255] :=
  broadcast_v4_sets_host_bits ⟨[192, 168, 0, 101], 25⟩ (by decide) (by decide) (by decide)

/-- C5: the v6 formatter does not end its output with the decimal bitmask. For the elements
    `[0x2001,0x0db8,0xface,0,0,0,0,0]` and bitmask 64 the output is `2001:db8:face:::::/40`: the
    stream is still in hexadecimal base when the bitmask is inserted, so the suffix is `/40` and
    not `/64`; for every v6 address the suffix is the bitmask in hexadecimal base. The v4
    formatter inserts the same bitmask as `/64`. -/
theorem format_v6_bitmask_suffix_hexadecimal :
    version.v6.format ⟨[0x2001, 0x0db8, 0xface, 0, 0, 0, 0, 0], 64⟩
      = some "2001:db8:face:::::/40" ∧
    ¬ (("/" ++ dec 64).data <:+ "2001:db8:face:::::/40".data) ∧
    (∀ (a : ip .v6), a.data.length = 8 →
      ∃ body : String, '/' ∉ body.data ∧
        version.v6.format a = some (body ++ "/" ++ hexInt a.bitmask)) ∧
    hexInt 64 = "40" ∧ dec 64 = "64" ∧
    version.v4.format ⟨[192, 168, 0, 101], 64⟩ = "192.168.0.101/64" := by
  refine ⟨by decide, by decide, ?_, by decide, by decide, by decide⟩
  intro a ha
  obtain ⟨d, p⟩ := a
  have hd := list_eq_of_length_eight d ha
  refine ⟨hex (d.getD 0 0) ++ ":" ++ v6ScanSpec [d.getD 1 0, d.getD 2 0, d.getD 3 0,
    d.getD 4 0, d.getD 5 0, d.getD 6 0, d.getD 7 0], ?_, ?_⟩
  · have h0 := hex_no_slash (d.getD 0 0)
    have h1 := v6ScanSpec_no_slash [d.getD 1 0, d.getD 2 0, d.getD 3 0,
      d.getD 4 0, d.getD 5 0, d.getD 6 0, d.getD 7 0]
    simp only [String.data_append, List.mem_append, not_or]
    exact ⟨⟨h0, by decide⟩, h1⟩
  · have h := format_v6_eq (d.getD 0 0) (d.getD 1 0) (d.getD 2 0) (d.getD 3 0)
      (d.getD 4 0) (d.getD 5 0) (d.getD 6 0) (d.getD 7 0) p
    rw [← hd] at h
    exact h

/-- C6: for every v4 address with elements `[e0,e1,e2,e3]` and every `int` bitmask `p`, `format`
    returns exactly `dec(e0) "." dec(e1) "." dec(e2) "." dec(e3) "/" dec(p)`; every element is
    inserted as a number, and for the octets `0 .. 255` the numeral has decimal digits only, no
    leading zero and the value of the octet. `[192,168,0,101]/25` gives `192.168.0.101/25`. -/
theorem format_v4_dotted_decimal (e0 e1 e2 e3 : Nat) (p : Int) :
    version.v4.format ⟨[e0, e1, e2, e3], p⟩
      = dec e0 ++ "." ++ dec e1 ++ "." ++ dec e2 ++ "." ++ dec e3 ++ "/" ++ dec p ∧
    (∀ n : Nat, n < 256 →
      (dec (n : Int)).data.all Char.isDigit = true ∧ decimalValue (dec (n : Int)) = n ∧
      ((dec (n : Int)).data.head? = some '0' → n = 0)) ∧
    version.v4.format ⟨[192, 168, 0, 101], 25⟩ = "192.168.0.101/25" := by
  refine ⟨rfl, ?_, by decide⟩
  intro n hn
  exact dec_octet_table ⟨n, hn⟩

/-- C7: for every v6 address with elements `e0 .. e7`, the output of `format` is a body, a slash
    and the bitmask suffix, where the body holds no slash and is `hex(e0)` and a colon, followed
    by the scan of `e1 .. e7`: a zero followed by a zero emits `::` and skips the second zero, a
    single zero emits `:`, any other element emits its digits and `:`, and `hex(e7)` is emitted
    exactly when `e7` is nonzero. `hex` is lowercase without leading zeros, and the body of
    `[0x2001,0x0db8,0xface,0,0,0,0,0]` begins `2001:db8:face:`. -/
theorem format_v6_scan (e0 e1 e2 e3 e4 e5 e6 e7 : Nat) (p : Int) :
    version.v6.format ⟨[e0, e1, e2, e3, e4, e5, e6, e7], p⟩
      = some (hex e0 ++ ":" ++ v6ScanSpec [e1, e2, e3, e4, e5, e6, e7] ++ "/" ++ hexInt p) ∧
    '/' ∉ (hex e0 ++ ":" ++ v6ScanSpec [e1, e2, e3, e4, e5, e6, e7]).data ∧
    (hex 0 = "0" ∧ hex 0x0db8 = "db8" ∧ hex 0xface = "face") ∧
    hex 0x2001 ++ ":" ++ v6ScanSpec [0x0db8, 0xface, 0, 0, 0, 0, 0] = "2001:db8:face:::::" ∧
    "2001:db8:face:".data <+: "2001:db8:face:::::".data := by
  refine ⟨format_v6_eq e0 e1 e2 e3 e4 e5 e6 e7 p, ?_, by decide, by decide, by decide⟩
  have h0 := hex_no_slash e0
  have h1 := v6ScanSpec_no_slash [e1, e2, e3, e4, e5, e6, e7]
  simp only [String.data_append, List.mem_append, not_or]
  exact ⟨⟨h0, by decide⟩, h1⟩

/-- C8: for both families (element width 8 and count 4 for v4, width 16 and count 8 for v6)
    and all addresses `a`, `b` of one family, at every index `i` of the family:
    `(~a)[i] = (2^w - 1) - a[i]`, `(a & b)[i] = a[i] AND b[i]`, `(a | b)[i] = a[i] OR b[i]` and
    `(a ^ b)[i] = a[i] XOR b[i]`; every result has the element count of the family. -/
theorem operators_act_elementwise (V : version) (a b : ip V) (ha : a.WellFormed)
    (hb : b.WellFormed) :
    (version.v4.valueBits = 8 ∧ version.v4.size = 4 ∧
      version.v6.valueBits = 16 ∧ version.v6.size = 8) ∧
    ((operatorCompl a).data.length = V.size ∧ (operatorAnd a b).data.length = V.size ∧
      (operatorOr a b).data.length = V.size ∧ (operatorXor a b).data.length = V.size) ∧
    ∀ i, i < V.size →
      (operatorCompl a).data.getD i 0 = (2 ^ V.valueBits - 1) - a.data.getD i 0 ∧
      (operatorAnd a b).data.getD i 0 = a.data.getD i 0 &&& b.data.getD i 0 ∧
      (operatorOr a b).data.getD i 0 = a.data.getD i 0 ||| b.data.getD i 0 ∧
      (operatorXor a b).data.getD i 0 = a.data.getD i 0 ^^^ b.data.getD i 0 := by
  refine ⟨by decide, ⟨operatorCompl_length a, operatorAnd_length a b, operatorOr_length a b,
    operatorXor_length a b⟩, ?_⟩
  intro i hi
  exact ⟨operatorCompl_getD a i hi (a.getD_lt ha i),
    operatorAnd_getD a b i hi (a.getD_lt ha i),
    operatorOr_getD a b i hi (a.getD_lt ha i) (b.getD_lt hb i),
    operatorXor_getD a b i hi (a.getD_lt ha i) (b.getD_lt hb i)⟩

/-- Witness of C8 at the v6 addresses `2001:db8:face::1/64` and `ffff:0:1234::/48`. -/
theorem operators_act_elementwise_witness :
    (⟨[0x2001, 0xdb8, 0xface, 0, 0, 0, 0, 1], 64⟩ : ip .v6).WellFormed ∧
    (⟨[0xffff, 0, 0x1234, 0, 0, 0, 0, 0], 48⟩ : ip .v6).WellFormed ∧
    ((version.v4.valueBits = 8 ∧ version.v4.size = 4 ∧
      version.v6.valueBits = 16 ∧ version.v6.size = 8) ∧
    ((operatorCompl (⟨[0x2001, 0xdb8, 0xface, 0, 0, 0, 0, 1], 64⟩ : ip .v6)).data.length
        = version.v6.size ∧
      (operatorAnd (⟨[0x2001, 0xdb8, 0xface, 0, 0, 0, 0, 1], 64⟩ : ip .v6)
        ⟨[0xffff, 0, 0x1234, 0, 0, 0, 0, 0], 48⟩).data.length = version.v6.size ∧
      (operatorOr (⟨[0x2001, 0xdb8, 0xface, 0, 0, 0, 0, 1], 64⟩ : ip .v6)
        ⟨[0xffff, 0, 0x1234, 0, 0, 0, 0, 0], 48⟩).data.length = version.v6.size ∧
      (operatorXor (⟨[0x2001, 0xdb8, 0xface, 0, 0, 0, 0, 1], 64⟩ : ip .v6)
        ⟨[0xffff, 0, 0x1234, 0, 0, 0, 0, 0], 48⟩).data.length = version.v6.size) ∧
    ∀ i, i < version.v6.size →
      (operatorCompl (⟨[0x2001, 0xdb8, 0xface, 0, 0, 0, 0, 1], 64⟩ : ip .v6)).data.getD i 0
        = (2 ^ version.v6.valueBits - 1)
          - (⟨[0x2001, 0xdb8, 0xface, 0, 0, 0, 0, 1], 64⟩ : ip .v6).data.getD i 0 ∧
      (operatorAnd (⟨[0x2001, 0xdb8, 0xface, 0, 0, 0, 0, 1], 64⟩ : ip .v6)
        ⟨[0xffff, 0, 0x1234, 0, 0, 0, 0, 0], 48⟩).data.getD i 0
        = (⟨[0x2001, 0xdb8, 0xface, 0, 0, 0, 0, 1], 64⟩ : ip .v6).data.getD i 0
          &&& (⟨[0xffff, 0, 0x1234, 0, 0, 0, 0, 0], 48⟩ : ip .v6).data.getD i 0 ∧
      (operatorOr (⟨[0x2001, 0xdb8, 0xface, 0, 0, 0, 0, 1], 64⟩ : ip .v6)
        ⟨[0xffff, 0, 0x1234, 0, 0, 0, 0, 0], 48⟩).data.getD i 0
        = (⟨[0x2001, 0xdb8, 0xface, 0, 0, 0, 0, 1], 64⟩ : ip .v6).data.getD i 0
          ||| (⟨[0xffff, 0, 0x1234, 0, 0, 0, 0, 0], 48⟩ : ip .v6).data.getD i 0 ∧
      (operatorXor (⟨[0x2001, 0xdb8, 0xface, 0, 0, 0, 0, 1], 64⟩ : ip .v6)
        ⟨[0xffff, 0, 0x1234, 0, 0, 0, 0, 0], 48⟩).data.getD i 0
        = (⟨[0x2001, 0xdb8, 0xface, 0, 0, 0, 0, 1], 64⟩ : ip .v6).data.getD i 0
          ^^^ (⟨[0xffff, 0, 0x1234, 0, 0, 0, 0, 0], 48⟩ : ip .v6).data.getD i 0) :=
  ⟨by decide, by decide,
    operators_act_elementwise .v6 ⟨[0x2001, 0xdb8, 0xface, 0, 0, 0, 0, 1], 64⟩
      ⟨[0xffff, 0, 0x1234, 0, 0, 0, 0, 0], 48⟩ (by decide) (by decide)⟩

/-- C9: `~(~a) == a` for every address `a` of either family: the elements and the bitmask of
    `~(~a)` are those of `a`. -/
theorem operatorCompl_involutive (V : version) (a : ip V) (ha : a.WellFormed) :
    operatorCompl (operatorCompl a) = a := by
  obtain ⟨d, p⟩ := a
  have hlen : d.length = V.size := ha.1
  have h1 := operatorCompl_data (⟨d, p⟩ : ip V) hlen
  have h2 := operatorCompl_data (operatorCompl (⟨d, p⟩ : ip V)) (operatorCompl_length _)
  have h3 : operatorCompl (operatorCompl (⟨d, p⟩ : ip V))
      = ⟨(operatorCompl (operatorCompl (⟨d, p⟩ : ip V))).data, p⟩ := rfl
  rw [h3, h2, h1, List.map_map]
  congr 1
  conv_rhs => rw [← List.map_id d]
  apply List.map_congr_left
  intro x hx
  have hx' : x < 2 ^ V.valueBits := ha.2.1 x hx
  simp only [Function.comp_apply, id_eq]
  rw [V.toValue_compl x hx', V.toValue_compl _ (by omega)]
  omega

/-- Witness of C9 at the address `192.168.0.101/25`. -/
theorem operatorCompl_involutive_witness :
    (⟨[192, 168, 0, 101], 25⟩ : ip .v4).WellFormed ∧
    operatorCompl (operatorCompl (⟨[192, 168, 0, 101], 25⟩ : ip .v4))
      = ⟨[192, 168, 0, 101], 25⟩ :=
  ⟨by decide, operatorCompl_involutive .v4 ⟨[192, 168, 0, 101], 25⟩ (by decide)⟩

/-- C10: two addresses of one family with the same bitmask have the same netmask elements,
    whatever their own elements are. -/
theorem netmask_reads_bitmask_only (V : version) (a b : ip V) (h : a.bitmask = b.bitmask) :
    (netmask a).data = (netmask b).data := by
  simp only [netmask, h]

/-- Witness of C10 at `192.168.0.101/25` and `10.0.0.1/25`. -/
theorem netmask_reads_bitmask_only_witness :
    (⟨[192, 168, 0, 101], 25⟩ : ip .v4).bitmask = (⟨[10, 0, 0, 1], 25⟩ : ip .v4).bitmask ∧
    (netmask (⟨[192, 168, 0, 101], 25⟩ : ip .v4)).data
      = (netmask (⟨[10, 0, 0, 1], 25⟩ : ip .v4)).data :=
  ⟨rfl, netmask_reads_bitmask_only .v4 ⟨[192, 168, 0, 101], 25⟩ ⟨[10, 0, 0, 1], 25⟩ rfl⟩

/-- C11: every engine function returns an address with the bitmask of its input: `netmask(a)`,
    `~a`, `network(a)` and `broadcast(a)` carry `a.bitmask`, and `a & b`, `a | b`, `a ^ b` carry
    the bitmask of the left operand `a`, also when the bitmask of `b` differs (here 25 on the
    left and 16 on the right). -/
theorem engine_keeps_bitmask (V : version) (a b : ip V) (c : ip .v4) :
    (netmask a).bitmask = a.bitmask ∧ (operatorCompl a).bitmask = a.bitmask ∧
    (network c).bitmask = c.bitmask ∧ (broadcast c).bitmask = c.bitmask ∧
    (operatorAnd a b).bitmask = a.bitmask ∧ (operatorOr a b).bitmask = a.bitmask ∧
    (operatorXor a b).bitmask = a.bitmask ∧
    (operatorAnd (⟨[192, 168, 0, 101], 25⟩ : ip .v4) ⟨[255, 255, 0, 0], 16⟩).bitmask = 25 ∧
    (operatorOr (⟨[192, 168, 0, 101], 25⟩ : ip .v4) ⟨[255, 255, 0, 0], 16⟩).bitmask = 25 ∧
    (operatorXor (⟨[192, 168, 0, 101], 25⟩ : ip .v4) ⟨[255, 255, 0, 0], 16⟩).bitmask = 25 :=
  ⟨rfl, rfl, rfl, rfl, rfl, rfl, rfl, rfl, rfl, rfl⟩

/-- C13, as stated, fails: there is no address, of either family, with a bitmask below zero or
    above the total bit count, for which the walk of `netmask` writes an element index outside
    `0 .. size - 1`. -/
theorem netmask_walk_out_of_bounds_never :
    ¬ ∃ (V : version) (a : ip V),
        (a.bitmask < 0 ∨ ((V.size * V.valueBits : Nat) : Int) < a.bitmask) ∧
        ∃ r : List Nat × List Int, netmaskTrace a = some r ∧
          ∃ i ∈ r.2, i < 0 ∨ (V.size : Int) ≤ i := by
  rintro ⟨V, a, -, r, hr, i, hi, hbad⟩
  obtain ⟨t, ht, -, hmem⟩ := netmaskTrace_spec a
  rw [ht] at hr
  cases hr
  have := hmem i hi
  omega

/-- C13, amended: for every address, whatever its bitmask (negative and above the total bit
    count included), the walk of `netmask` ends, takes at most `size` steps and writes only
    element indices in `0 .. size - 1`: the test `i >= 0` on the `int` index stops it. For the
    v4 bitmasks 33 and -1 and the v6 bitmasks 129 and -1 the indices written are all the indices
    of the array, last to first. -/
theorem netmask_walk_in_bounds (V : version) (a : ip V) :
    (∃ t : List Int, netmaskTrace a = some ((netmask a).data, t) ∧
      t.length ≤ V.size ∧ ∀ i ∈ t, 0 ≤ i ∧ i < (V.size : Int)) ∧
    netmaskTrace (⟨[192, 168, 0, 101], 33⟩ : ip .v4) = some ([0, 0, 0, 0], [3, 2, 1, 0]) ∧
    netmaskTrace (⟨[192, 168, 0, 101], -1⟩ : ip .v4) = some ([0, 0, 0, 0], [3, 2, 1, 0]) ∧
    netmaskTrace (⟨[0x2001, 0xdb8, 0xface, 0, 0, 0, 0, 1], 129⟩ : ip .v6)
      = some ([0, 0, 0, 0, 0, 0, 0, 0], [7, 6, 5, 4, 3, 2, 1, 0]) ∧
    netmaskTrace (⟨[0x2001, 0xdb8, 0xface, 0, 0, 0, 0, 1], -1⟩ : ip .v6)
      = some ([0, 0, 0, 0, 0, 0, 0, 0], [7, 6, 5, 4, 3, 2, 1, 0]) :=
  ⟨netmaskTrace_spec a, by decide, by decide, by decide, by decide⟩

/-- C16: for every v4 address whose bitmask `p` is an `int` outside `0 .. 32`, `netmask` ends
    after exactly 4 walk steps, writes the indices 3, 2, 1, 0 and no other, and returns the
    elements `[0,0,0,0]` with bitmask `p`: `remaining_bits` is `(32 - p) mod 2^64` in `size_t`,
    which is at least 32, so at each of the 4 steps 8 bits are shifted. -/
theorem netmask_v4_out_of_range (a : ip .v4) (hwf : a.WellFormed)
    (hout : a.bitmask < 0 ∨ 32 < a.bitmask) :
    netmaskTrace a = some ([0, 0, 0, 0], [3, 2, 1, 0]) ∧
    netmask a = ⟨[0, 0, 0, 0], a.bitmask⟩ ∧
    toSizeT (32 - a.bitmask) = ((32 - a.bitmask) % 2 ^ 64).toNat ∧
    32 ≤ toSizeT (32 - a.bitmask) ∧
    ∀ k, k < 4 → min (toSizeT (32 - a.bitmask) - 8 * k) version.v4.valueBits = 8 := by
  obtain ⟨h32, hlt⟩ := toSizeT_v4_out_of_range a.bitmask hwf.2.2.1 hwf.2.2.2 hout
  have htrace : netmaskTrace a = some ([0, 0, 0, 0], [3, 2, 1, 0]) :=
    netmaskWalkTrace_v4_all_zero (toSizeT (32 - a.bitmask)) h32 hlt
  refine ⟨htrace, ?_, rfl, h32, ?_⟩
  · obtain ⟨t, ht, -, -⟩ := netmaskTrace_spec a
    rw [htrace] at ht
    have hd : (netmask a).data = [0, 0, 0, 0] :=
      (congrArg Prod.fst (Option.some.inj ht)).symm
    have : netmask a = ⟨(netmask a).data, a.bitmask⟩ := rfl
    rw [this, hd]
  · intro k hk
    show min _ 8 = 8
    omega

/-- Witness of C16 at the address `192.168.0.101/33`. -/
theorem netmask_v4_out_of_range_witness :
    (⟨[192, 168, 0, 101], 33⟩ : ip .v4).WellFormed ∧
    netmaskTrace (⟨[192, 168, 0, 101], 33⟩ : ip .v4) = some ([0, 0, 0, 0], [3, 2, 1, 0]) ∧
    netmask (⟨[192, 168, 0, 101], 33⟩ : ip .v4) = ⟨[0, 0, 0, 0], 33⟩ ∧
    toSizeT (32 - 33) = ((32 - 33 : Int) % 2 ^ 64).toNat ∧
    32 ≤ toSizeT (32 - 33) ∧
    ∀ k, k < 4 → min (toSizeT (32 - 33) - 8 * k) version.v4.valueBits = 8 :=
  ⟨by decide, netmask_v4_out_of_range ⟨[192, 168, 0, 101], 33⟩ (by decide) (Or.inr (by decide))⟩

/-- C12: for the v6 address with elements `[0x2001,0x0db8,0xface,0,0,0,0,0]` the loop of `format`
    takes the zero-pair branch at the two scan positions 3 and 5, so the `::` token is emitted
    twice in the one output string `2001:db8:face:` `::` `::` `/40`. -/
theorem format_v6_emits_pair_token_twice :
    ∃ a : ip .v6, a.WellFormed ∧ a.data = [0x2001, 0x0db8, 0xface, 0, 0, 0, 0, 0] ∧
      ∃ (out : String) (pairs : List Nat),
        version.v6.formatLoopPairs a.data version.v6.size 1 (hex (a.data.getD 0 0) ++ ":") []
          = some (out, pairs) ∧
        pairs = [3, 5] ∧ 2 ≤ pairs.length ∧
        out = "2001:db8:face:" ++ "::" ++ "::" ∧
        version.v6.format a = some (out ++ "/" ++ hexInt a.bitmask) :=
  ⟨⟨[0x2001, 0x0db8, 0xface, 0, 0, 0, 0, 0], 64⟩, by decide, rfl,
    "2001:db8:face:::::", [3, 5], by decide, rfl, by decide, by decide, by decide⟩

/-- C17: for every v6 address whose last element `e7` is nonzero, the output of `format` is a
    body, a slash and the bitmask suffix, where the body holds no slash and is the eight fields
    `f0 .. f7` joined by single colons, exactly 7 of them: `f0 = hex(e0)`, and for `i ≥ 1` the
    field `fi` is `hex(ei)` when `ei` is nonzero and empty when `ei = 0`. -/
theorem format_v6_fields_joined (e0 e1 e2 e3 e4 e5 e6 e7 : Nat) (p : Int) (h7 : e7 ≠ 0) :
    version.v6.format ⟨[e0, e1, e2, e3, e4, e5, e6, e7], p⟩
      = some (joinColon [hex e0, v6Field e1, v6Field e2, v6Field e3, v6Field e4, v6Field e5,
          v6Field e6, v6Field e7] ++ "/" ++ hexInt p) ∧
    joinColon [hex e0, v6Field e1, v6Field e2, v6Field e3, v6Field e4, v6Field e5,
        v6Field e6, v6Field e7]
      = hex e0 ++ ":" ++ (v6Field e1 ++ ":" ++ (v6Field e2 ++ ":" ++ (v6Field e3 ++ ":" ++
          (v6Field e4 ++ ":" ++ (v6Field e5 ++ ":" ++ (v6Field e6 ++ ":" ++ v6Field e7)))))) ∧
    '/' ∉ (joinColon [hex e0, v6Field e1, v6Field e2, v6Field e3, v6Field e4, v6Field e5,
        v6Field e6, v6Field e7]).data ∧
    (joinColon [hex e0, v6Field e1, v6Field e2, v6Field e3, v6Field e4, v6Field e5,
        v6Field e6, v6Field e7]).data.count ':' = 7 ∧
    (∀ e, ':' ∉ (hex e).data ∧ ':' ∉ (v6Field e).data) ∧
    (∀ e, (e = 0 → v6Field e = "") ∧ (e ≠ 0 → v6Field e = hex e)) := by
  have hscan := v6ScanSpec_eq_joinColon 7 [e1, e2, e3, e4, e5, e6, e7] (le_refl _) (by simp)
    (by simpa using h7)
  have hjoin : joinColon [hex e0, v6Field e1, v6Field e2, v6Field e3, v6Field e4, v6Field e5,
        v6Field e6, v6Field e7]
      = hex e0 ++ ":" ++ (v6Field e1 ++ ":" ++ (v6Field e2 ++ ":" ++ (v6Field e3 ++ ":" ++
          (v6Field e4 ++ ":" ++ (v6Field e5 ++ ":" ++ (v6Field e6 ++ ":" ++ v6Field e7)))))) :=
    rfl
  refine ⟨?_, hjoin, ?_, ?_, fun e => ⟨hex_no_colon e, v6Field_no_colon e⟩, ?_⟩
  · rw [format_v6_eq, hscan]
    rfl
  · rw [hjoin]
    have := hex_no_slash e0
    have := v6Field_no_slash e1
    have := v6Field_no_slash e2
    have := v6Field_no_slash e3
    have := v6Field_no_slash e4
    have := v6Field_no_slash e5
    have := v6Field_no_slash e6
    have := v6Field_no_slash e7
    have hc : '/' ∉ ":".data := by decide
    simp only [String.data_append, List.mem_append, not_or]
    tauto
  · rw [hjoin]
    have h0 := List.count_eq_zero_of_not_mem (hex_no_colon e0)
    have h1 := List.count_eq_zero_of_not_mem (v6Field_no_colon e1)
    have h2 := List.count_eq_zero_of_not_mem (v6Field_no_colon e2)
    have h3 := List.count_eq_zero_of_not_mem (v6Field_no_colon e3)
    have h4 := List.count_eq_zero_of_not_mem (v6Field_no_colon e4)
    have h5 := List.count_eq_zero_of_not_mem (v6Field_no_colon e5)
    have h6 := List.count_eq_zero_of_not_mem (v6Field_no_colon e6)
    have h7' := List.count_eq_zero_of_not_mem (v6Field_no_colon e7)
    have hc : ":".data.count ':' = 1 := by decide
    simp only [String.data_append, List.count_append, h0, h1, h2, h3, h4, h5, h6, h7', hc]
  · intro e
    constructor
    · intro h
      simp [v6Field, h]
    · intro h
      simp [v6Field, h]

/-- Witness of C17 at the elements `[0x2001,0xdb8,0,0,0,0,0,1]`, whose body is
    `2001:db8::::::1`. -/
theorem format_v6_fields_joined_witness :
    (1 : Nat) ≠ 0 ∧
    version.v6.format ⟨[0x2001, 0xdb8, 0, 0, 0, 0, 0, 1], 64⟩ = some "2001:db8::::::1/40" ∧
    version.v6.format ⟨[0x2001, 0xdb8, 0, 0, 0, 0, 0, 1], 64⟩
      = some (joinColon [hex 0x2001, v6Field 0xdb8, v6Field 0, v6Field 0, v6Field 0, v6Field 0,
          v6Field 0, v6Field 1] ++ "/" ++ hexInt 64) :=
  ⟨by decide, by decide,
    (format_v6_fields_joined 0x2001 0xdb8 0 0 0 0 0 1 64 (by decide)).1⟩

/-- C18: for every v4 address `a` and every bitmask, `network(network(a)) = network(a)`,
    `broadcast(broadcast(a)) = broadcast(a)`, `network(broadcast(a)) = network(a)` and
    `broadcast(network(a)) = broadcast(a)`, as equalities of the elements and of the bitmask. -/
theorem network_broadcast_idempotent (a : ip .v4) (hwf : a.WellFormed) :
    network (network a) = network a ∧ broadcast (broadcast a) = broadcast a ∧
    network (broadcast a) = network a ∧ broadcast (network a) = broadcast a := by
  have hx : ∀ i, a.data.getD i 0 < 2 ^ 8 := fun i => a.getD_lt hwf i
  have hm : ∀ i, (netmask a).data.getD i 0 < 2 ^ 8 := fun i => netmask_getD_lt a hwf i
  have hn : ∀ i, i < 4 →
      (network a).data.getD i 0 = a.data.getD i 0 &&& (netmask a).data.getD i 0 :=
    fun i hi => network_getD a hwf i hi
  have hb : ∀ i, i < 4 →
      (broadcast a).data.getD i 0 = a.data.getD i 0 ||| (255 - (netmask a).data.getD i 0) :=
    fun i hi => broadcast_getD a hwf i hi
  have hmn : (netmask (network a)).data = (netmask a).data := rfl
  have hmb : (netmask (broadcast a)).data = (netmask a).data := rfl
  have hnlt : ∀ i, i < 4 → (network a).data.getD i 0 < 2 ^ 8 := by
    intro i hi
    rw [hn i hi]
    exact lt_of_le_of_lt Nat.and_le_left (hx i)
  have hblt : ∀ i, i < 4 → (broadcast a).data.getD i 0 < 2 ^ 8 := by
    intro i hi
    rw [hb i hi]
    exact or_octet_lt _ _ (hx i)
  have hmnlt : ∀ i, (netmask (network a)).data.getD i 0 < 2 ^ 8 := by
    intro i
    rw [hmn]
    exact hm i
  have hmblt : ∀ i, (netmask (broadcast a)).data.getD i 0 < 2 ^ 8 := by
    intro i
    rw [hmb]
    exact hm i
  refine ⟨?_, ?_, ?_, ?_⟩
  · refine ip_v4_eq_of_getD (network (network a)) (network a) (operatorAnd_length _ _)
      (operatorAnd_length _ _) rfl ?_
    intro i hi
    have h1 : (network (network a)).data.getD i 0
        = (network a).data.getD i 0 &&& (netmask (network a)).data.getD i 0 :=
      operatorAnd_getD (network a) (netmask (network a)) i hi (hnlt i hi)
    rw [h1, hmn, hn i hi, Nat.and_assoc, Nat.and_self]
  · refine ip_v4_eq_of_getD (broadcast (broadcast a)) (broadcast a) (operatorOr_length _ _)
      (operatorOr_length _ _) rfl ?_
    intro i hi
    have hc : (operatorCompl (netmask (broadcast a))).data.getD i 0
        = 255 - (netmask (broadcast a)).data.getD i 0 :=
      operatorCompl_getD (netmask (broadcast a)) i hi (hmblt i)
    have h1 : (broadcast (broadcast a)).data.getD i 0
        = (broadcast a).data.getD i 0 ||| (operatorCompl (netmask (broadcast a))).data.getD i 0 :=
      operatorOr_getD (broadcast a) (operatorCompl (netmask (broadcast a))) i hi (hblt i hi)
        (by rw [hc]; show 255 - _ < 256; omega)
    rw [h1, hc, hmb, hb i hi, Nat.or_assoc, Nat.or_self]
  · refine ip_v4_eq_of_getD (network (broadcast a)) (network a) (operatorAnd_length _ _)
      (operatorAnd_length _ _) rfl ?_
    intro i hi
    have h1 : (network (broadcast a)).data.getD i 0
        = (broadcast a).data.getD i 0 &&& (netmask (broadcast a)).data.getD i 0 :=
      operatorAnd_getD (broadcast a) (netmask (broadcast a)) i hi (hblt i hi)
    rw [h1, hmb, hb i hi, hn i hi, or_compl_and_octet _ _ (hm i)]
  · refine ip_v4_eq_of_getD (broadcast (network a)) (broadcast a) (operatorOr_length _ _)
      (operatorOr_length _ _) rfl ?_
    intro i hi
    have hc : (operatorCompl (netmask (network a))).data.getD i 0
        = 255 - (netmask (network a)).data.getD i 0 :=
      operatorCompl_getD (netmask (network a)) i hi (hmnlt i)
    have h1 : (broadcast (network a)).data.getD i 0
        = (network a).data.getD i 0 ||| (operatorCompl (netmask (network a))).data.getD i 0 :=
      operatorOr_getD (network a) (operatorCompl (netmask (network a))) i hi (hnlt i hi)
        (by rw [hc]; show 255 - _ < 256; omega)
    rw [h1, hc, hmn, hn i hi, hb i hi, and_or_compl_octet _ _ (hx i) (hm i)]

/-- Witness of C18 at the address `192.168.0.101/25`. -/
theorem network_broadcast_idempotent_witness :
    (⟨[192, 168, 0, 101], 25⟩ : ip .v4).WellFormed ∧
    (network (network (⟨[192, 168, 0, 101], 25⟩ : ip .v4)) = network ⟨[192, 168, 0, 101], 25⟩ ∧
    broadcast (broadcast (⟨[192, 168, 0, 101], 25⟩ : ip .v4))
      = broadcast ⟨[192, 168, 0, 101], 25⟩ ∧
    network (broadcast (⟨[192, 168, 0, 101], 25⟩ : ip .v4)) = network ⟨[192, 168, 0, 101], 25⟩ ∧
    broadcast (network (⟨[192, 168, 0, 101], 25⟩ : ip .v4))
      = broadcast ⟨[192, 168, 0, 101], 25⟩) :=
  ⟨by decide, network_broadcast_idempotent ⟨[192, 168, 0, 101], 25⟩ (by decide)⟩

/-- C14: for every v4 address `a` with bitmask `p` in `0 .. 32`, reading element sequences as
    32-bit big-endian numbers: `network(a) = a - (a mod 2^(32-p))` and
    `broadcast(a) = network(a) + 2^(32-p) - 1`; hence `network(a) ≤ a ≤ broadcast(a)` and the
    subnet from `network(a)` to `broadcast(a)` holds exactly `2^(32-p)` addresses. -/
theorem subnet_is_aligned_range (a : ip .v4) (hwf : a.WellFormed) (h0 : 0 ≤ a.bitmask)
    (h32 : a.bitmask ≤ 32) :
    beValue 8 (network a).data
      = beValue 8 a.data - beValue 8 a.data % 2 ^ (32 - a.bitmask.toNat) ∧
    beValue 8 (broadcast a).data
      = beValue 8 (network a).data + 2 ^ (32 - a.bitmask.toNat) - 1 ∧
    beValue 8 (network a).data ≤ beValue 8 a.data ∧
    beValue 8 a.data ≤ beValue 8 (broadcast a).data ∧
    beValue 8 (broadcast a).data - beValue 8 (network a).data + 1
      = 2 ^ (32 - a.bitmask.toNat) := by
  have hx : ∀ i, a.data.getD i 0 < 2 ^ 8 := fun i => a.getD_lt hwf i
  have hmask := netmask_v4_elems a h0 h32
  have hm : ∀ i, i < 4 → (netmask a).data.getD i 0
      = 256 - 2 ^ hostBits (32 - a.bitmask.toNat) i := by
    intro i hi
    rw [hmask]
    interval_cases i <;> rfl
  have hn : ∀ i, i < 4 → (network a).data.getD i 0
      = a.data.getD i 0 - a.data.getD i 0 % 2 ^ hostBits (32 - a.bitmask.toNat) i := by
    intro i hi
    rw [network_getD a hwf i hi, hm i hi, and_mask_octet _ _ _ (hx i)]
  have hb : ∀ i, i < 4 → (broadcast a).data.getD i 0
      = a.data.getD i 0 - a.data.getD i 0 % 2 ^ hostBits (32 - a.bitmask.toNat) i
        + (2 ^ hostBits (32 - a.bitmask.toNat) i - 1) := by
    intro i hi
    rw [broadcast_getD a hwf i hi, hm i hi, or_mask_octet _ _ _ (hx i)]
  have hA := congrArg (beValue 8) (list_eq_of_length_four a.data hwf.1)
  have hN := congrArg (beValue 8)
    (list_eq_of_length_four (network a).data (operatorAnd_length a (netmask a)))
  have hB := congrArg (beValue 8)
    (list_eq_of_length_four (broadcast a).data (operatorOr_length a _))
  rw [beValue_four] at hA hN hB
  rw [hn 0 (by omega), hn 1 (by omega), hn 2 (by omega), hn 3 (by omega)] at hN
  rw [hb 0 (by omega), hb 1 (by omega), hb 2 (by omega), hb 3 (by omega)] at hB
  obtain ⟨e1, e2⟩ := subnet_arith (32 - a.bitmask.toNat) (a.data.getD 0 0) (a.data.getD 1 0)
    (a.data.getD 2 0) (a.data.getD 3 0) (by omega) (hx 0) (hx 1) (hx 2) (hx 3)
  have hN' : beValue 8 (network a).data
      = beValue 8 a.data - beValue 8 a.data % 2 ^ (32 - a.bitmask.toNat) := by
    rw [hN, hA]
    exact e1
  have hB' : beValue 8 (broadcast a).data
      = beValue 8 a.data - beValue 8 a.data % 2 ^ (32 - a.bitmask.toNat)
        + 2 ^ (32 - a.bitmask.toNat) - 1 := by
    rw [hB, hA]
    exact e2
  have hpos : 0 < 2 ^ (32 - a.bitmask.toNat) := by positivity
  have hmod : beValue 8 a.data % 2 ^ (32 - a.bitmask.toNat) < 2 ^ (32 - a.bitmask.toNat) :=
    Nat.mod_lt _ hpos
  have hle : beValue 8 a.data % 2 ^ (32 - a.bitmask.toNat) ≤ beValue 8 a.data :=
    Nat.mod_le _ _
  refine ⟨hN', ?_, ?_, ?_, ?_⟩
  · rw [hB', hN']
  · rw [hN']
    omega
  · rw [hB']
    omega
  · rw [hB', hN']
    omega

/-- Witness of C14 at the address `192.168.0.101/25`: network `192.168.0.0`, broadcast
    `192.168.0.127`, 128 addresses. -/
theorem subnet_is_aligned_range_witness :
    (⟨[192, 168, 0, 101], 25⟩ : ip .v4).WellFormed ∧
    beValue 8 (network (⟨[192, 168, 0, 101], 25⟩ : ip .v4)).data
      = beValue 8 [192, 168, 0, 101] - beValue 8 [192, 168, 0, 101] % 2 ^ (32 - 25) ∧
    beValue 8 (broadcast (⟨[192, 168, 0, 101], 25⟩ : ip .v4)).data
      - beValue 8 (network (⟨[192, 168, 0, 101], 25⟩ : ip .v4)).data + 1 = 2 ^ (32 - 25) :=
  ⟨by decide,
    (subnet_is_aligned_range ⟨[192, 168, 0, 101], 25⟩ (by decide) (by decide) (by decide)).1,
    (subnet_is_aligned_range ⟨[192, 168, 0, 101], 25⟩ (by decide) (by decide)
      (by decide)).2.2.2.2⟩

/-- C15, as stated, fails at bitmask 100, which lies in `65 .. 128`: `netmask` returns
    `[0xffff,0xffff,0xffff,0xffff,0,0,0xf000,0]`, not the elements
    `[0xffff,0xffff,0xffff,0xffff,0,0,0,0]` it returns for bitmask 64. -/
theorem netmask_v6_bitmask_100_differs_from_64 :
    (64 : Int) < 100 ∧ (100 : Int) ≤ 128 ∧
    (netmask (⟨[0x2001, 0xdb8, 0xface, 0, 0, 0, 0, 1], 100⟩ : ip .v6)).data
      = [0xffff, 0xffff, 0xffff, 0xffff, 0, 0, 0xf000, 0] ∧
    (netmask (⟨[0x2001, 0xdb8, 0xface, 0, 0, 0, 0, 1], 64⟩ : ip .v6)).data
      = [0xffff, 0xffff, 0xffff, 0xffff, 0, 0, 0, 0] ∧
    (netmask (⟨[0x2001, 0xdb8, 0xface, 0, 0, 0, 0, 1], 100⟩ : ip .v6)).data
      ≠ [0xffff, 0xffff, 0xffff, 0xffff, 0, 0, 0, 0] := by
  decide

/-- C15, amended: for every v6 address with bitmask `p`: when `0 ≤ p ≤ 64` the elements of
    `netmask` have the 128-bit value `2^128 - 2^(128-p)` and elements 4 to 7 are zero; when
    `64 < p ≤ 128` elements 0 to 3 are `0xffff` and every element the backward walk reaches, the
    last `ceil((128-p)/16)` ones, is the element of the conventional mask at that index, so the
    elements are not those of bitmask 64 whenever `128 - p` is no multiple of 16; and when
    `64 < p < 80` the whole mask has the conventional value `2^128 - 2^(128-p)`. -/
theorem netmask_v6_by_bitmask (a : ip .v6) (h0 : 0 ≤ a.bitmask) (h128 : a.bitmask ≤ 128) :
    (a.bitmask ≤ 64 →
      beValue 16 (netmask a).data = 2 ^ 128 - 2 ^ (128 - a.bitmask.toNat) ∧
      ∀ i, 4 ≤ i → i < 8 → (netmask a).data.getD i 0 = 0) ∧
    (64 < a.bitmask →
      (∀ i, i < 4 → (netmask a).data.getD i 0 = 0xffff) ∧
      (∀ i, i < 8 → 8 - (128 - a.bitmask.toNat + 15) / 16 ≤ i →
        (netmask a).data.getD i 0 = conventionalV6Elem a.bitmask.toNat i) ∧
      ((128 - a.bitmask.toNat) % 16 ≠ 0 →
        (netmask a).data ≠ [0xffff, 0xffff, 0xffff, 0xffff, 0, 0, 0, 0])) ∧
    (64 < a.bitmask → a.bitmask < 80 →
      beValue 16 (netmask a).data = 2 ^ 128 - 2 ^ (128 - a.bitmask.toNat)) := by
  obtain ⟨d, p⟩ := a
  simp only at h0 h128
  lift p to Nat using h0
  simp only [Int.toNat_ofNat]
  rw [netmask_data_eq d]
  refine ⟨?_, ?_, ?_⟩
  · intro h
    have hp : p < 65 := by omega
    obtain ⟨hv, hz⟩ := netmask_v6_lower_table ⟨p, hp⟩
    refine ⟨hv, ?_⟩
    intro i h4 h8
    have := hz ⟨i - 4, by omega⟩
    simp only at this
    rwa [show 4 + (i - 4) = i by omega] at this
  · intro h
    have hp : p - 65 < 64 := by omega
    have hk : 65 + (p - 65) = p := by omega
    obtain ⟨hf, hc, hne⟩ := netmask_v6_upper_elems_table ⟨p - 65, hp⟩
    simp only [hk] at hf hc hne
    exact ⟨fun i hi => hf ⟨i, hi⟩, fun i hi hr => hc ⟨i, hi⟩ hr, hne⟩
  · intro h h80
    have hp : p - 65 < 15 := by omega
    have hk : 65 + (p - 65) = p := by omega
    have := netmask_v6_middle_table ⟨p - 65, hp⟩
    simp only [hk] at this
    exact this

/-- Witness of C15 at the bitmask 100: elements 0 to 3 are `0xffff`, elements 6 and 7, which the
    walk reaches, are `0xf000` and `0` as in the conventional mask. -/
theorem netmask_v6_by_bitmask_witness :
    ((0 : Int) ≤ 100 ∧ (100 : Int) ≤ 128 ∧ (64 : Int) < 100) ∧
    (∀ i, i < 4 →
      (netmask (⟨[0x2001, 0xdb8, 0xface, 0, 0, 0, 0, 1], 100⟩ : ip .v6)).data.getD i 0
        = 0xffff) ∧
    (∀ i, i < 8 → 8 - (128 - (100 : Int).toNat + 15) / 16 ≤ i →
      (netmask (⟨[0x2001, 0xdb8, 0xface, 0, 0, 0, 0, 1], 100⟩ : ip .v6)).data.getD i 0
        = conventionalV6Elem (100 : Int).toNat i) ∧
    conventionalV6Elem 100 6 = 0xf000 ∧ conventionalV6Elem 100 7 = 0 :=
  ⟨by decide,
    ((netmask_v6_by_bitmask ⟨[0x2001, 0xdb8, 0xface, 0, 0, 0, 0, 1], 100⟩ (by decide)
      (by decide)).2.1 (by decide)).1,
    ((netmask_v6_by_bitmask ⟨[0x2001, 0xdb8, 0xface, 0, 0, 0, 0, 1], 100⟩ (by decide)
      (by decide)).2.1 (by decide)).2.1,
    by decide, by decide⟩

end Subnet
